import Mathlib

/-!
Search front end (`frontend/search.go`, `frontend/frontend.go`)

A shallow embedding of `Search.Handler`, `getPageLink` and `unmarshalRawJson`,
together with the parts of the Go standard library they call
(`net/url`, `strconv`, `log`, `net/http`), followed by the properties proved
about them.

Go strings are byte sequences: `GoString` is a list of bytes.  Go's `int` is
taken to be 64 bits wide.  A Go `map[string][]string` is represented by its
list of entries in ascending key order, the order in which `Values.Encode`
visits them.
-/

namespace Torture

deriving instance DecidableEq for Except

/-! ## Strings -/

abbrev Byte := Fin 256

abbrev GoString := List Byte

/-- The bytes of an ASCII literal. -/
def ascii (s : String) : GoString := s.data.map (fun c => Fin.ofNat c.toNat)

/-! ## `net/url`: query escaping -/

/-- `shouldEscape(c, encodeQueryComponent)`: everything but the unreserved
characters `A-Z a-z 0-9 - _ . ~` is escaped. -/
def shouldEscape (c : Byte) : Bool :=
  !((97 ≤ c.val && c.val ≤ 122) || (65 ≤ c.val && c.val ≤ 90) || (48 ≤ c.val && c.val ≤ 57)
    || c.val == 45 || c.val == 95 || c.val == 46 || c.val == 126)

/-- `upperhex[n]` for `"0123456789ABCDEF"`. -/
def upperhex (n : Nat) : Byte := if n < 10 then Fin.ofNat (48 + n) else Fin.ofNat (55 + n)

/-- One step of `escape(s, encodeQueryComponent)`. -/
def escapeByte (c : Byte) : GoString :=
  if c = 32 then [43]
  else if shouldEscape c then [37, upperhex (c.val / 16), upperhex (c.val % 16)]
  else [c]

/-- `url.QueryEscape`. -/
def QueryEscape : GoString → GoString
  | [] => []
  | c :: s => escapeByte c ++ QueryEscape s

/-- `ishex`. -/
def ishex (c : Byte) : Bool :=
  (48 ≤ c.val && c.val ≤ 57) || (97 ≤ c.val && c.val ≤ 102) || (65 ≤ c.val && c.val ≤ 70)

/-- `unhex`. -/
def unhex (c : Byte) : Nat :=
  if 48 ≤ c.val ∧ c.val ≤ 57 then c.val - 48
  else if 97 ≤ c.val ∧ c.val ≤ 102 then c.val - 97 + 10
  else if 65 ≤ c.val ∧ c.val ≤ 70 then c.val - 65 + 10
  else 0

/-- `url.QueryUnescape`: `none` stands for the `EscapeError` returned when a
`%` is not followed by two hexadecimal digits. -/
def QueryUnescape : GoString → Option GoString
  | [] => some []
  | c :: rest =>
    if c = 37 then
      match rest with
      | a :: b :: rest' =>
        if ishex a && ishex b then
          (QueryUnescape rest').map (fun t => Fin.ofNat (unhex a * 16 + unhex b) :: t)
        else none
      | _ => none
    else if c = 43 then (QueryUnescape rest).map (fun t => (32 : Byte) :: t)
    else (QueryUnescape rest).map (fun t => c :: t)

/-! ## `net/url`: `Values` -/

/-- `url.Values`, a `map[string][]string`, as its entries in ascending key order. -/
abbrev Values := List (GoString × List GoString)

/-- Apply `f` to the slice stored under `key` (the nil slice when the key is
absent) and store the result. -/
def Values.update (key : GoString) (f : List GoString → List GoString) : Values → Values
  | [] => [(key, f [])]
  | (k, vs) :: rest =>
    if key = k then (k, f vs) :: rest
    else if key < k then (key, f []) :: (k, vs) :: rest
    else (k, vs) :: Values.update key f rest

/-- The slice `v[key]`, nil when the key is absent. -/
def Values.index (v : Values) (key : GoString) : List GoString :=
  match v with
  | [] => []
  | (k, vs) :: rest => if key = k then vs else Values.index rest key

/-- `m[key] = append(m[key], value)`. -/
def Values.Add (v : Values) (key value : GoString) : Values :=
  Values.update key (fun vs => vs ++ [value]) v

/-- `Values.Set`: `v[key] = []string{value}`. -/
def Values.Set (v : Values) (key value : GoString) : Values :=
  Values.update key (fun _ => [value]) v

/-- `Values.Get`: the first value of the key, or the empty string. -/
def Values.Get (v : Values) (key : GoString) : GoString :=
  match Values.index v key with
  | [] => []
  | x :: _ => x

/-- The segments of `s` between occurrences of `sep`. -/
def splitOn (sep : Byte) : GoString → List GoString
  | [] => [[]]
  | c :: cs =>
    if c = sep then [] :: splitOn sep cs
    else
      match splitOn sep cs with
      | [] => [[c]]
      | seg :: segs => (c :: seg) :: segs

/-- `strings.Cut(s, sep)` for a one-byte separator: the text before and after
the first `sep`, all of `s` and the empty string when `sep` does not occur. -/
def cut (sep : Byte) : GoString → GoString × GoString
  | [] => ([], [])
  | c :: cs => if c = sep then ([], cs) else ((c :: (cut sep cs).1), (cut sep cs).2)

/-- The body of the loop of `parseQuery` for one `&`-separated segment: a
segment holding `;`, an empty segment and a segment whose key or value does not
unescape are skipped. -/
def parsePair (m : Values) (seg : GoString) : Values :=
  if (59 : Byte) ∈ seg then m
  else if seg = [] then m
  else
    match QueryUnescape (cut 61 seg).1 with
    | none => m
    | some key =>
      match QueryUnescape (cut 61 seg).2 with
      | none => m
      | some value => Values.Add m key value

/-- `url.ParseQuery`, its error dropped as `URL.Query` does. -/
def ParseQuery (query : GoString) : Values :=
  (splitOn 38 query).foldl parsePair []

/-- One step of the buffer loop of `Values.Encode`. -/
def encodeStep (keyEscaped : GoString) (buf : GoString) (v : GoString) : GoString :=
  (if 0 < buf.length then buf ++ [38] else buf) ++ keyEscaped ++ [61] ++ QueryEscape v

/-- `Values.Encode`: keys in ascending order, the values of a key in their
stored order, `key=value` pairs joined by `&`. -/
def Values.Encode (v : Values) : GoString :=
  v.foldl (fun buf kv => kv.2.foldl (encodeStep (QueryEscape kv.1)) buf) []

/-! ## `net/url`: `URL` -/

/-- The fields of `url.URL` that `URL.String` reads.  `User` is the rendered
user information when present; `Host`, `Path` and `Fragment` are held in the
escaped form in which `String` prints them. -/
structure URL where
  Scheme : GoString
  Opaque : GoString
  User : Option GoString
  Host : GoString
  Path : GoString
  OmitHost : Bool
  ForceQuery : Bool
  RawQuery : GoString
  Fragment : GoString
deriving DecidableEq, Repr

/-- `URL.Query`. -/
def URL.Query (u : URL) : Values := ParseQuery u.RawQuery

/-- The authority part `URL.String` writes when `Opaque` is empty: nothing when
scheme, host and user are all absent, nothing when `OmitHost` is set and host
and user are absent, else `//` (when host, path or user is present), the user
with `@`, and the host. -/
def URL.authority (u : URL) : GoString :=
  if u.Scheme ≠ [] ∨ u.Host ≠ [] ∨ u.User ≠ none then
    if u.OmitHost = true ∧ u.Host = [] ∧ u.User = none then []
    else
      (if u.Host ≠ [] ∨ u.Path ≠ [] ∨ u.User ≠ none then [47, 47] else [])
        ++ (match u.User with
            | some ui => ui ++ [64]
            | none => [])
        ++ u.Host
  else []

/-- The part of `URL.String` before the query: the scheme with `:`, then
`Opaque`, or else the authority, a `/` before a path that lacks one when a
host is present, `./` when nothing has been written so far and the first
segment of the path holds a `:`, and the path. -/
def URL.beforeQuery (u : URL) : GoString :=
  let buf := if u.Scheme ≠ [] then u.Scheme ++ [58] else []
  if u.Opaque ≠ [] then buf ++ u.Opaque
  else
    let buf := buf ++ u.authority
    let buf := if u.Path ≠ [] ∧ u.Path.head? ≠ some 47 ∧ u.Host ≠ [] then buf ++ [47] else buf
    let buf := if buf.length = 0 ∧ (58 : Byte) ∈ (cut 47 u.Path).1 then buf ++ [46, 47] else buf
    buf ++ u.Path

/-- `URL.String`. -/
def URL.String (u : URL) : GoString :=
  u.beforeQuery
    ++ (if u.ForceQuery ∨ u.RawQuery ≠ [] then 63 :: u.RawQuery else [])
    ++ (if u.Fragment ≠ [] then 35 :: u.Fragment else [])

/-! ## `strconv` -/

/-- The decimal digits of `n`, most significant first; `fuel` bounds the
number of digits. -/
def formatDecimal : Nat → Nat → GoString
  | 0, _ => []
  | fuel + 1, n =>
    if n < 10 then [Fin.ofNat (48 + n)]
    else formatDecimal fuel (n / 10) ++ [Fin.ofNat (48 + n % 10)]

/-- `strconv.Itoa`. -/
def Itoa (i : Int) : GoString :=
  match i with
  | Int.ofNat n => formatDecimal (n + 1) n
  | Int.negSucc n => 45 :: formatDecimal (n + 2) (n + 1)

/-- The `Err` field of a `*strconv.NumError`. -/
inductive NumError where
  | ErrSyntax
  | ErrRange
deriving DecidableEq, Repr

/-- The digit loop of `strconv.ParseUint(s, 10, 64)`: `n` is the value read so
far.  `1844674407370955162` is `cutoff = maxUint64/10 + 1`; the sum `n*10 + d`
is taken modulo `2^64` and compared with `n*10` to detect the wrap. -/
def parseUintLoop (n : Nat) : GoString → Except NumError Nat
  | [] => .ok n
  | c :: cs =>
    if 48 ≤ c.val ∧ c.val ≤ 57 then
      if 1844674407370955162 ≤ n then .error .ErrRange
      else if (n * 10 + (c.val - 48)) % 2 ^ 64 < n * 10 then .error .ErrRange
      else parseUintLoop ((n * 10 + (c.val - 48)) % 2 ^ 64) cs
    else .error .ErrSyntax

/-- `strconv.ParseUint(s, 10, 64)`. -/
def ParseUint (s : GoString) : Except NumError Nat :=
  if s = [] then .error .ErrSyntax else parseUintLoop 0 s

/-- The part of `strconv.ParseInt(s, 10, 64)` after the sign is stripped:
`ParseUint` on the rest, then the check against `1 << 63`. -/
def parseIntTail (neg : Bool) (t : GoString) : Except NumError Int :=
  match ParseUint t with
  | .error e => .error e
  | .ok un =>
    if neg = false ∧ 2 ^ 63 ≤ un then .error .ErrRange
    else if neg = true ∧ 2 ^ 63 < un then .error .ErrRange
    else .ok (if neg then - (un : Int) else (un : Int))

/-- `strconv.Atoi`, that is `ParseInt(s, 10, 0)` with a 64-bit `int`: the empty
string is a syntax error, a leading `+` or `-` is stripped. -/
def Atoi (s : GoString) : Except NumError Int :=
  match s with
  | [] => .error .ErrSyntax
  | c :: rest =>
    if c = 43 then parseIntTail false rest
    else if c = 45 then parseIntTail true rest
    else parseIntTail false s

/-! ## Go `int` arithmetic -/

/-- The value of an integer result reduced to the 64-bit two's complement range. -/
def wrapInt (x : Int) : Int := (x + 2 ^ 63) % 2 ^ 64 - 2 ^ 63

/-- The range of `int`. -/
def inInt (x : Int) : Prop := - 2 ^ 63 ≤ x ∧ x ≤ 2 ^ 63 - 1

instance (x : Int) : Decidable (inInt x) := by unfold inInt; infer_instance

/-! ## `getPageLink` -/

/-- `getPageLink(page, inURL)`: the returned string, and the URL that `inURL`
points to after the call (the function assigns to `inURL.RawQuery`). -/
def getPageLink (page : Int) (inURL : URL) : GoString × URL :=
  let page := if page < 1 then 0 else page
  let qry := inURL.Query
  let qry := qry.Set (ascii "p") (Itoa page)
  let inURL := { inURL with RawQuery := qry.Encode }
  (inURL.String, inURL)

/-! ## Errors, panics, the logger and the response writer -/

/-- A Go `error` value; `msg` is what `Error()` returns. -/
structure GoError where
  msg : GoString
deriving DecidableEq, Repr

/-- The value carried by a panic, by dynamic kind: a value that implements
`error` (a run-time panic is one), or a plain string. -/
inductive PanicValue where
  | error (e : GoError)
  | string (s : GoString)
deriving DecidableEq, Repr

/-- The run-time panic of a nil pointer dereference. -/
def nilDereference : PanicValue :=
  .error ⟨ascii "runtime error: invalid memory address or nil pointer dereference"⟩

/-- The run-time panic of an integer division by zero. -/
def divideByZero : PanicValue :=
  .error ⟨ascii "runtime error: integer divide by zero"⟩

/-- An `http.ResponseWriter`: the header map, the status and the header sent
once the header is written, the body bytes written, and the error every
`Write` returns when the connection is broken. -/
structure ResponseWriter where
  header : List (GoString × GoString)
  status : Option Nat
  sentHeader : List (GoString × GoString)
  body : GoString
  broken : Option GoError
deriving DecidableEq, Repr

/-- `w.Header().Set(key, value)`. -/
def ResponseWriter.SetHeader (w : ResponseWriter) (key value : GoString) : ResponseWriter :=
  { w with header := (w.header.filter (fun kv => kv.1 ≠ key)) ++ [(key, value)] }

/-- `w.WriteHeader(code)`: the first call fixes the status and sends the header
map as it stands; later calls change nothing. -/
def ResponseWriter.WriteHeader (w : ResponseWriter) (code : Nat) : ResponseWriter :=
  match w.status with
  | some _ => w
  | none => { w with status := some code, sentHeader := w.header }

/-- `w.Write(b)`: writes the header with status 200 when none was written yet,
then the bytes; on a broken connection no byte is written and the error is
returned. -/
def ResponseWriter.Write (w : ResponseWriter) (b : GoString) : ResponseWriter × Option GoError :=
  let w := w.WriteHeader 200
  match w.broken with
  | some err => (w, some err)
  | none => ({ w with body := w.body ++ b }, none)

/-- `http.Error(w, error, code)`. -/
def httpError (w : ResponseWriter) (error : GoString) (code : Nat) : ResponseWriter :=
  let w := w.SetHeader (ascii "Content-Type") (ascii "text/plain; charset=utf-8")
  let w := w.SetHeader (ascii "X-Content-Type-Options") (ascii "nosniff")
  let w := w.WriteHeader code
  (w.Write (error ++ [10])).1

/-! ## The search backend and the handler -/

/-- The struct `Server`. -/
structure Server where
  Url : GoString
  Path : GoString
deriving DecidableEq, Repr

/-- The struct `Result`; `Size` is a `uint64`. -/
structure Result where
  Servers : List Server
  Filename : GoString
  Size : Nat
  HumanSize : GoString
deriving DecidableEq, Repr

/-- Modelled from the spec: the declaration of the backend's hit type is not
among the sources.  A hit carries an opaque source payload and metadata; the
handler reads only `Source`, a `*json.RawMessage`, `none` being the nil
pointer. -/
structure Hit where
  Source : Option GoString
deriving DecidableEq, Repr

/-- Modelled from the spec: the declaration of the type of `resp.Hits` is not
among the sources.  It holds the ordered sequence of hits and the total count,
the two fields the handler reads as `resp.Hits.Hits` and `resp.Hits.Total`;
`Total` is divided by the `int` `PerPage` and so is an `int`. -/
structure SearchHits where
  Total : Int
  Hits : List Hit
deriving DecidableEq, Repr

/-- Modelled from the spec: the declaration of the backend's response type is
not among the sources.  The handler reads its field `Hits`. -/
structure SearchResult where
  Hits : SearchHits
deriving DecidableEq, Repr

/-- The context handed to the template. -/
structure Context (Filter : Type) where
  query : GoString
  filters : Filter
  page : Int
  frompage : Int
  maxpages : Int
  prevpage : GoString
  nextpage : GoString
  elapsed : Nat
  response : SearchResult
  results : List Result
deriving DecidableEq

/-- What the handler is linked against and configured with: the configured
`PerPage`, the backend call `elasticSearch.Search`, `json.Marshal` on the hits,
`json.Unmarshal` of a payload into a fresh `Result`, the filter decoder
(`CreateFilter` and `UnmarshalStringSlice`), `humanize.Bytes`, the bytes the
template writes for a context, and the elapsed milliseconds. -/
structure Env (Filter : Type) where
  PerPage : Int
  Search : GoString → Filter → Int → Int → Except GoError SearchResult
  Marshal : SearchHits → Except GoError GoString
  Unmarshal : GoString → Except GoError Result
  decodeFilter : List GoString → Filter
  humanize : Nat → GoString
  template : Context Filter → GoString
  elapsed : Nat

/-- An incoming `GET` request: its URL.  The form of a `GET` request is the
parsed query of the URL. -/
structure Request where
  URL : URL
deriving DecidableEq, Repr

/-- `r.Form` after `ParseForm`. -/
def Request.Form (r : Request) : Values := ParseQuery r.URL.RawQuery

/-- `r.FormValue(key)`. -/
def Request.FormValue (r : Request) (key : GoString) : GoString := r.Form.Get key

/-- What a request leaves behind: the lines written to the logger and the
response writer, and a record of the calls made to `json.Marshal`, to
`json.Unmarshal` and to the template. -/
structure World (Filter : Type) where
  log : List GoString
  w : ResponseWriter
  marshalled : List SearchHits
  unmarshalled : List GoString
  executed : List (Context Filter)
deriving DecidableEq

/-- `Log.Println(err)`. -/
def World.Println {Filter : Type} (s : World Filter) (err : GoError) : World Filter :=
  { s with log := s.log ++ [err.msg] }

/-- `Log.Panic(err)`: `s := fmt.Sprint(err)`, one log line `s`, then `panic(s)`
with the string `s`.  The call never returns: the result is the world after
the log line and the value of the panic. -/
def World.Panic {Filter : Type} (s : World Filter) (err : GoError) :
    World Filter × PanicValue :=
  ({ s with log := s.log ++ [err.msg] }, .string err.msg)

/-- `unmarshalRawJson(input, &result)`: `input.MarshalJSON()` dereferences
`input` and returns the raw bytes with a nil error, then `json.Unmarshal`
decodes them.  The outer result is the run-time panic of a nil `input`. -/
def unmarshalRawJson {Filter : Type} (env : Env Filter) (input : Option GoString)
    (s : World Filter) : World Filter × Except PanicValue (Except GoError Result) :=
  match input with
  | none => (s, .error nilDereference)
  | some raw => ({ s with unmarshalled := s.unmarshalled ++ [raw] }, .ok (env.Unmarshal raw))

/-- The loop over `resp.Hits.Hits`; `results` is the slice built so far. -/
def decodeHits {Filter : Type} (env : Env Filter) :
    List Hit → World Filter → List Result → World Filter × Except PanicValue (List Result)
  | [], s, results => (s, .ok results)
  | qr :: rest, s, results =>
    match unmarshalRawJson env qr.Source s with
    | (s, .error pv) => (s, .error pv)
    | (s, .ok (.error err)) =>
      match s.Panic err with
      | (s, pv) => (s, .error pv)
    | (s, .ok (.ok result)) =>
      let result := { result with HumanSize := env.humanize result.Size }
      decodeHits env rest s (results ++ [result])

/-- The page decoded from the `p` form value. -/
def decodePage (p : GoString) : Int :=
  match Atoi p with
  | .ok page => page
  | .error _ => 0

/-- The value of `"frompage"`: `PerPage * page` in `int` arithmetic. -/
def frompage (perPage page : Int) : Int := wrapInt (perPage * page)

/-- The value of `"maxpages"`: `Total / PerPage` in `int` arithmetic, which
truncates toward zero and panics on a zero divisor. -/
def maxpages (total perPage : Int) : Except PanicValue Int :=
  if perPage = 0 then .error divideByZero else .ok (wrapInt (Int.tdiv total perPage))

/-- The `pongo2.Context` literal of the handler, `mp` being the quotient
computed for `"maxpages"`.  The second `getPageLink` call receives the URL as
the first call left it. -/
def pageContext {Filter : Type} (env : Env Filter) (r : Request) (query : GoString)
    (filters : Filter) (page : Int) (resp : SearchResult) (results : List Result) (mp : Int) :
    Context Filter :=
  let prev := getPageLink (wrapInt (page - 1)) r.URL
  let next := getPageLink (wrapInt (page + 1)) prev.2
  { query := query, filters := filters, page := page,
    frompage := frompage env.PerPage page, maxpages := mp,
    prevpage := prev.1, nextpage := next.1,
    elapsed := env.elapsed, response := resp, results := results }

/-- The body of `Search.Handler`: the world afterwards and the panic it ended
with, if any. -/
def handlerBody {Filter : Type} (env : Env Filter) (r : Request) (s : World Filter) :
    World Filter × Option PanicValue :=
  let query := r.FormValue (ascii "q")
  let format := r.FormValue (ascii "format")
  let page := decodePage (r.FormValue (ascii "p"))
  let filters := env.decodeFilter (r.Form.index (ascii "f"))
  match env.Search query filters env.PerPage page with
  | .error err =>
    match s.Panic err with
    | (s, pv) => (s, some pv)
  | .ok resp =>
    if format = ascii "json" then
      let s := { s with marshalled := s.marshalled ++ [resp.Hits] }
      match env.Marshal resp.Hits with
      | .error err =>
        match s.Panic err with
        | (s, pv) => (s, some pv)
      | .ok output =>
        let w := s.w.SetHeader (ascii "Content-Type") (ascii "application/json")
        match w.Write output with
        | (w, some err) =>
          match World.Panic { s with w := w } err with
          | (s, pv) => (s, some pv)
        | (w, none) => ({ s with w := w }, none)
    else
      match decodeHits env resp.Hits.Hits s [] with
      | (s, .error pv) => (s, some pv)
      | (s, .ok results) =>
        match maxpages resp.Hits.Total env.PerPage with
        | .error pv => (s, some pv)
        | .ok mp =>
          let ctx := pageContext env r query filters page resp results mp
          ({ s with w := (s.w.Write (env.template ctx)).1, executed := s.executed ++ [ctx] }, none)

/-- The built-in `recover` called in a deferred function: it returns the value
of the panic in flight (`none` for nil when there is none) and stops the panic. -/
def recover (panicking : Option PanicValue) : Option PanicValue × Option PanicValue :=
  (panicking, none)

/-- The deferred function of `Search.Handler`, run when the body has ended
with or without a panic: the world afterwards and the panic still in flight. -/
def deferred {Filter : Type} (s : World Filter) (panicking : Option PanicValue) :
    World Filter × Option PanicValue :=
  match recover panicking with
  | (some (.error err), panicking) =>
    let s := s.Println err
    ({ s with w := httpError s.w err.msg 500 }, panicking)
  | (_, panicking) => (s, panicking)

/-- `Search.Handler`: the body, then the deferred function. -/
def Handler {Filter : Type} (env : Env Filter) (r : Request) (s : World Filter) :
    World Filter × Option PanicValue :=
  match handlerBody env r s with
  | (s, panicking) => deferred s panicking

/-- The world at the start of a request: nothing logged, nothing written;
`broken` is the error of the connection, if it is broken. -/
def World.fresh (Filter : Type) (broken : Option GoError) : World Filter :=
  { log := [],
    w := { header := [], status := none, sentHeader := [], body := [], broken := broken },
    marshalled := [], unmarshalled := [], executed := [] }

/-! ## Notions used in the statements -/

/-- A hit decodes: it has a payload and `json.Unmarshal` accepts it.  A hit
that does not decode has no payload, or a payload on which `json.Unmarshal`
returns an error. -/
def decodes {Filter : Type} (env : Env Filter) (qr : Hit) : Prop :=
  ∃ raw result, qr.Source = some raw ∧ env.Unmarshal raw = .ok result

/-- The payloads the loop over the hits hands to `json.Unmarshal`: those of the
hits in order, up to and including the first that does not decode, and none
from a hit with a nil `Source` on. -/
def attempted {Filter : Type} (env : Env Filter) : List Hit → List GoString
  | [] => []
  | qr :: rest =>
    match qr.Source with
    | none => []
    | some raw =>
      match env.Unmarshal raw with
      | .error _ => [raw]
      | .ok _ => raw :: attempted env rest

/-- The `Result` the loop appends for a payload that decodes. -/
def resultOf {Filter : Type} (env : Env Filter) (qr : Hit) : Option Result :=
  match qr.Source with
  | none => none
  | some raw =>
    match env.Unmarshal raw with
    | .error _ => none
    | .ok result => some { result with HumanSize := env.humanize result.Size }

/-- The body the interface description promises for `format=json`: a JSON
array whose elements are the raw payloads of the hits. -/
def payloadArray (hits : List Hit) : GoString :=
  [91] ++ List.intercalate [44] (hits.map (fun qr => qr.Source.getD (ascii "null"))) ++ [93]

/-- What `encoding/json` produces for a struct value: an object with one member
per exported field.  Here for a hit, reduced to its payload, with the field
name as member name (a `json` tag on the field would rename the member). -/
def marshalHit (qr : Hit) : GoString :=
  ascii "\x7b\"Source\":" ++ qr.Source.getD (ascii "null") ++ ascii "\x7d"

/-- What `json.Marshal` produces for the struct `resp.Hits`: an object holding
the total and the array of the hits. -/
def marshalSearchHits (hits : SearchHits) : GoString :=
  ascii "\x7b\"Total\":" ++ Itoa hits.Total ++ ascii ",\"Hits\":["
    ++ List.intercalate [44] (hits.Hits.map marshalHit) ++ ascii "]\x7d"

/-! ## A concrete deployment -/

/-- The URL `/s?query`. -/
def searchURL (query : GoString) : URL :=
  { Scheme := [], Opaque := [], User := none, Host := [], Path := ascii "/s",
    OmitHost := false, ForceQuery := false, RawQuery := query, Fragment := [] }

/-- The request `GET /s?query`. -/
def searchRequest (query : String) : Request := ⟨searchURL (ascii query)⟩

/-- A backend response of two hits, the second with an undecodable payload. -/
def mixedResponse : SearchResult :=
  ⟨⟨2, [⟨some (ascii "\x7b\"size\":2048\x7d")⟩, ⟨some (ascii "bad")⟩]⟩⟩

/-- A backend response of three good hits out of 50. -/
def goodResponse : SearchResult :=
  ⟨⟨50, [⟨some (ascii "\x7b\"size\":1\x7d")⟩, ⟨some (ascii "\x7b\"size\":2\x7d")⟩,
         ⟨some (ascii "\x7b\"size\":3\x7d")⟩]⟩⟩

/-- A deployment with the given `PerPage`.  The backend is down for the query
`down`, returns a hit with an undecodable payload after a good one for the
query `mixed`, and three good hits out of 50 otherwise.  The payload `bad` is
not valid JSON: neither `json.Marshal` nor `json.Unmarshal` accepts it. -/
def sampleEnv (perPage : Int) : Env (List GoString) :=
  { PerPage := perPage
    Search := fun query _ _ _ =>
      if query = ascii "down" then .error ⟨ascii "backend down"⟩
      else if query = ascii "mixed" then .ok mixedResponse
      else .ok goodResponse
    Marshal := fun hits =>
      if ⟨some (ascii "bad")⟩ ∈ hits.Hits then .error ⟨ascii "invalid character b"⟩
      else .ok (marshalSearchHits hits)
    Unmarshal := fun raw =>
      if raw = ascii "bad" then .error ⟨ascii "invalid character b"⟩
      else .ok ⟨[], ascii "a.txt", 2048, []⟩
    decodeFilter := id
    humanize := fun _ => ascii "2.0 kB"
    template := fun ctx => ascii "<html>" ++ Itoa ctx.maxpages ++ ascii "</html>"
    elapsed := 3 }

/-- The backend call the handler makes for a request: `Search(query, filters,
PerPage, page)` on the decoded parameters. -/
def searchCall {Filter : Type} (env : Env Filter) (r : Request) : Except GoError SearchResult :=
  env.Search (r.FormValue (ascii "q")) (env.decodeFilter (r.Form.index (ascii "f")))
    env.PerPage (decodePage (r.FormValue (ascii "p")))

/-! ## Decimal integers -/

/-- A decimal digit. -/
def isDigit (c : Byte) : Bool := 48 ≤ c.val && c.val ≤ 57

/-- The number denoted by the digits `ds` written after a number `n`. -/
def decimalValueFrom (n : Nat) (ds : GoString) : Nat :=
  ds.foldl (fun n c => n * 10 + (c.val - 48)) n

/-- The integer a string denotes when it is a decimal integer: an optional
sign `+` or `-` followed by one or more decimal digits, and nothing else. -/
def decimalInt (s : GoString) : Option Int :=
  match s with
  | [] => none
  | c :: rest =>
    if c = 43 then
      if rest ≠ [] ∧ rest.all isDigit then some (decimalValueFrom 0 rest : Int) else none
    else if c = 45 then
      if rest ≠ [] ∧ rest.all isDigit then some (- (decimalValueFrom 0 rest : Int)) else none
    else if s.all isDigit then some (decimalValueFrom 0 s : Int) else none

/-! ## Notions used for the query string -/

/-- The `key=value` pairs of a `Values` in the order `Encode` writes them. -/
def Values.pairs : Values → List (GoString × GoString)
  | [] => []
  | (k, vs) :: rest => vs.map (fun v => (k, v)) ++ Values.pairs rest

/-- The text `Encode` writes for one pair. -/
def encodePair (kv : GoString × GoString) : GoString :=
  QueryEscape kv.1 ++ [61] ++ QueryEscape kv.2

/-- The text `&p1&p2...` for the pieces `p1, p2, ...`. -/
def ampJoin : List GoString → GoString
  | [] => []
  | p :: ps => 38 :: p ++ ampJoin ps

/-- A `Values` as `ParseQuery` and `Set` build it: the keys are distinct (listed
in ascending order) and no key holds an empty slice. -/
def Values.wellFormed (v : Values) : Prop :=
  (v.map Prod.fst).Pairwise (· < ·) ∧ ∀ kv ∈ v, kv.2 ≠ []

/-- The text `k1=v1&k2=v2...` for a list of key/value pairs, keys and values
query-escaped. -/
def joinPairs (ps : List (GoString × GoString)) : GoString :=
  match ps.map encodePair with
  | [] => []
  | p :: rest => p ++ ampJoin rest

/-- The values a list of key/value pairs gives for a key, in their order. -/
def valuesOf (key : GoString) (ps : List (GoString × GoString)) : List GoString :=
  (ps.filter (fun kv => kv.1 = key)).map Prod.snd

/-- The string `s` is the decimal numeral of `n`: one or more decimal digits,
denoting `n`, without a leading zero unless it is the single digit `0`. -/
def isDecimalOf (s : GoString) (n : Nat) : Prop :=
  s ≠ [] ∧ s.all isDigit = true ∧ decimalValueFrom 0 s = n ∧ (s.head? = some 48 → s = [48])

/-! ## Theorems -/

/-! ### The loop over the hits -/

theorem decodeHits_frame {Filter : Type} (env : Env Filter) (hs : List Hit) :
    ∀ (s : World Filter) (rs : List Result),
      (decodeHits env hs s rs).1.w = s.w ∧ (decodeHits env hs s rs).1.executed = s.executed
        ∧ (decodeHits env hs s rs).1.marshalled = s.marshalled := by
  induction hs with
  | nil => intro s rs; simp [decodeHits]
  | cons qr rest ih =>
    intro s rs
    cases hsrc : qr.Source with
    | none => simp [decodeHits, unmarshalRawJson, hsrc]
    | some raw =>
      cases hu : env.Unmarshal raw with
      | error err => simp [decodeHits, unmarshalRawJson, hsrc, hu, World.Panic]
      | ok result =>
        simp only [decodeHits, unmarshalRawJson, hsrc, hu]
        exact ih _ _

theorem decodeHits_unmarshalled {Filter : Type} (env : Env Filter) (hs : List Hit) :
    ∀ (s : World Filter) (rs : List Result),
      (decodeHits env hs s rs).1.unmarshalled = s.unmarshalled ++ attempted env hs := by
  induction hs with
  | nil => intro s rs; simp [decodeHits, attempted]
  | cons qr rest ih =>
    intro s rs
    cases hsrc : qr.Source with
    | none => simp [decodeHits, unmarshalRawJson, attempted, hsrc]
    | some raw =>
      cases hu : env.Unmarshal raw with
      | error err => simp [decodeHits, unmarshalRawJson, attempted, hsrc, hu, World.Panic]
      | ok result =>
        simp only [decodeHits, unmarshalRawJson, attempted, hsrc, hu]
        rw [ih]
        simp

theorem decodeHits_error_of_not_decodes {Filter : Type} (env : Env Filter) (hs : List Hit)
    (hbad : ∃ qr ∈ hs, ¬ decodes env qr) :
    ∀ (s : World Filter) (rs : List Result), ∃ pv, (decodeHits env hs s rs).2 = .error pv := by
  induction hs with
  | nil => simp at hbad
  | cons qr rest ih =>
    intro s rs
    cases hsrc : qr.Source with
    | none => simp [decodeHits, unmarshalRawJson, hsrc]
    | some raw =>
      cases hu : env.Unmarshal raw with
      | error err => simp [decodeHits, unmarshalRawJson, hsrc, hu, World.Panic]
      | ok result =>
        simp only [decodeHits, unmarshalRawJson, hsrc, hu]
        apply ih
        obtain ⟨q, hq, hnd⟩ := hbad
        rcases List.mem_cons.1 hq with rfl | hq
        · exact absurd ⟨raw, result, hsrc, hu⟩ hnd
        · exact ⟨q, hq, hnd⟩

theorem decodeHits_error_string {Filter : Type} (env : Env Filter) (hs : List Hit)
    (hsrc : ∀ qr ∈ hs, qr.Source ≠ none) :
    ∀ (s : World Filter) (rs : List Result) (pv : PanicValue),
      (decodeHits env hs s rs).2 = .error pv →
        ∃ err : GoError, pv = .string err.msg ∧ (decodeHits env hs s rs).1.log = s.log ++ [err.msg] := by
  induction hs with
  | nil => intro s rs pv h; simp [decodeHits] at h
  | cons qr rest ih =>
    intro s rs pv h
    cases hq : qr.Source with
    | none => exact absurd hq (hsrc qr (List.mem_cons_self _ _))
    | some raw =>
      cases hu : env.Unmarshal raw with
      | error err =>
        simp only [decodeHits, unmarshalRawJson, hq, hu, World.Panic] at h ⊢
        refine ⟨err, ?_, rfl⟩
        injection h with h
        exact h.symm
      | ok result =>
        simp only [decodeHits, unmarshalRawJson, hq, hu] at h ⊢
        exact ih (fun q hq => hsrc q (List.mem_cons_of_mem _ hq)) _ _ pv h

theorem decodeHits_ok {Filter : Type} (env : Env Filter) (hs : List Hit)
    (hall : ∀ qr ∈ hs, decodes env qr) :
    ∀ (s : World Filter) (rs : List Result),
      decodeHits env hs s rs =
        ({ s with unmarshalled := s.unmarshalled ++ attempted env hs },
          .ok (rs ++ hs.filterMap (resultOf env))) := by
  induction hs with
  | nil => intro s rs; simp [decodeHits, attempted]
  | cons qr rest ih =>
    intro s rs
    obtain ⟨raw, result, hq, hu⟩ := hall qr (List.mem_cons_self _ _)
    simp only [decodeHits, unmarshalRawJson, attempted, hq, hu]
    rw [ih (fun q hq => hall q (List.mem_cons_of_mem _ hq))]
    simp [List.filterMap_cons, resultOf, hq, hu]

/-! ### The error boundary -/

theorem handler_never_propagates {Filter : Type} (env : Env Filter) (r : Request)
    (s : World Filter) : (Handler env r s).2 = none := by
  unfold Handler deferred recover
  rcases handlerBody env r s with ⟨s1, _ | pv⟩
  · rfl
  · cases pv <;> rfl

theorem handlerBody_search_error {Filter : Type} (env : Env Filter) (r : Request)
    (s : World Filter) (err : GoError) (h : searchCall env r = .error err) :
    handlerBody env r s = ({ s with log := s.log ++ [err.msg] }, some (.string err.msg)) := by
  unfold searchCall at h
  simp only [handlerBody, h, World.Panic]

theorem handlerBody_json {Filter : Type} (env : Env Filter) (r : Request)
    (s : World Filter) (resp : SearchResult) (h : searchCall env r = .ok resp)
    (hf : r.FormValue (ascii "format") = ascii "json") :
    handlerBody env r s =
      match env.Marshal resp.Hits with
      | .error err =>
        ({ s with marshalled := s.marshalled ++ [resp.Hits], log := s.log ++ [err.msg] },
          some (.string err.msg))
      | .ok output =>
        match (s.w.SetHeader (ascii "Content-Type") (ascii "application/json")).Write output with
        | (w, some err) =>
          ({ s with marshalled := s.marshalled ++ [resp.Hits], w := w,
                    log := s.log ++ [err.msg] }, some (.string err.msg))
        | (w, none) => ({ s with marshalled := s.marshalled ++ [resp.Hits], w := w }, none) := by
  unfold searchCall at h
  simp only [handlerBody, h, hf, if_true, World.Panic]

theorem handlerBody_html {Filter : Type} (env : Env Filter) (r : Request)
    (s : World Filter) (resp : SearchResult) (h : searchCall env r = .ok resp)
    (hf : r.FormValue (ascii "format") ≠ ascii "json") :
    handlerBody env r s =
      match decodeHits env resp.Hits.Hits s [] with
      | (s, .error pv) => (s, some pv)
      | (s, .ok results) =>
        match maxpages resp.Hits.Total env.PerPage with
        | .error pv => (s, some pv)
        | .ok mp =>
          ({ s with
              w := (s.w.Write (env.template (pageContext env r (r.FormValue (ascii "q"))
                      (env.decodeFilter (r.Form.index (ascii "f")))
                      (decodePage (r.FormValue (ascii "p"))) resp results mp))).1,
              executed := s.executed ++ [pageContext env r (r.FormValue (ascii "q"))
                      (env.decodeFilter (r.Form.index (ascii "f")))
                      (decodePage (r.FormValue (ascii "p"))) resp results mp] }, none) := by
  unfold searchCall at h
  simp only [handlerBody, h, hf, if_false]

theorem decodeHits_error_kind {Filter : Type} (env : Env Filter) (hs : List Hit) :
    ∀ (s : World Filter) (rs : List Result) (pv : PanicValue),
      (decodeHits env hs s rs).2 = .error pv →
        (pv = nilDereference ∧ (decodeHits env hs s rs).1.log = s.log)
          ∨ ∃ err : GoError, pv = .string err.msg
              ∧ (decodeHits env hs s rs).1.log = s.log ++ [err.msg] := by
  induction hs with
  | nil => intro s rs pv h; simp [decodeHits] at h
  | cons qr rest ih =>
    intro s rs pv h
    cases hq : qr.Source with
    | none =>
      simp only [decodeHits, unmarshalRawJson, hq] at h ⊢
      injection h with h
      exact Or.inl ⟨h.symm, trivial⟩
    | some raw =>
      cases hu : env.Unmarshal raw with
      | error err =>
        simp only [decodeHits, unmarshalRawJson, hq, hu, World.Panic] at h ⊢
        injection h with h
        exact Or.inr ⟨err, h.symm, rfl⟩
      | ok result =>
        simp only [decodeHits, unmarshalRawJson, hq, hu] at h ⊢
        exact ih _ _ pv h

theorem decodeHits_ok_log {Filter : Type} (env : Env Filter) (hs : List Hit) :
    ∀ (s : World Filter) (rs results : List Result),
      (decodeHits env hs s rs).2 = .ok results → (decodeHits env hs s rs).1.log = s.log := by
  induction hs with
  | nil => intro s rs results _; rfl
  | cons qr rest ih =>
    intro s rs results h
    cases hq : qr.Source with
    | none => simp [decodeHits, unmarshalRawJson, hq] at h
    | some raw =>
      cases hu : env.Unmarshal raw with
      | error err => simp [decodeHits, unmarshalRawJson, hq, hu, World.Panic] at h
      | ok result =>
        simp only [decodeHits, unmarshalRawJson, hq, hu] at h ⊢
        exact ih _ _ results h

theorem handlerBody_error_panic {Filter : Type} (env : Env Filter) (r : Request)
    (s : World Filter) (e : GoError) (h : (handlerBody env r s).2 = some (.error e)) :
    (handlerBody env r s).1.w = s.w ∧ (handlerBody env r s).1.log = s.log := by
  cases hs : searchCall env r with
  | error err =>
    rw [handlerBody_search_error env r s err hs] at h
    simp at h
  | ok resp =>
    by_cases hf : r.FormValue (ascii "format") = ascii "json"
    · rw [handlerBody_json env r s resp hs hf] at h
      cases hm : env.Marshal resp.Hits with
      | error err => rw [hm] at h; simp at h
      | ok output =>
        rw [hm] at h
        simp only at h
        rcases hw : (s.w.SetHeader (ascii "Content-Type") (ascii "application/json")).Write output
          with ⟨w, _ | err⟩
        · rw [hw] at h; simp at h
        · rw [hw] at h; simp at h
    · rw [handlerBody_html env r s resp hs hf] at h ⊢
      have hfr := decodeHits_frame env resp.Hits.Hits s []
      have hk := decodeHits_error_kind env resp.Hits.Hits s []
      have hl := decodeHits_ok_log env resp.Hits.Hits s []
      rcases hd : decodeHits env resp.Hits.Hits s [] with ⟨s1, res⟩
      rw [hd] at h hfr hk hl
      simp only at hfr hk hl
      cases res with
      | error pv =>
        simp only [Option.some.injEq] at h
        subst h
        rcases hk _ rfl with ⟨_, hlog⟩ | ⟨err, hstr, _⟩
        · exact ⟨hfr.1, hlog⟩
        · cases hstr
      | ok results =>
        simp only at h ⊢
        cases hm : maxpages resp.Hits.Total env.PerPage with
        | error pv => exact ⟨hfr.1, hl results rfl⟩
        | ok mp => rw [hm] at h; simp at h

theorem Write_status (w : ResponseWriter) (b : GoString) (h : w.status = none) :
    (w.Write b).1.status = some 200 := by
  unfold ResponseWriter.Write ResponseWriter.WriteHeader
  rw [h]
  cases w.broken <;> rfl

theorem handlerBody_status {Filter : Type} (env : Env Filter) (r : Request)
    (s : World Filter) (h : s.w.status = none) :
    (handlerBody env r s).1.w.status = none ∨ (handlerBody env r s).1.w.status = some 200 := by
  cases hs : searchCall env r with
  | error err =>
    rw [handlerBody_search_error env r s err hs]
    exact Or.inl h
  | ok resp =>
    by_cases hf : r.FormValue (ascii "format") = ascii "json"
    · rw [handlerBody_json env r s resp hs hf]
      cases env.Marshal resp.Hits with
      | error err => exact Or.inl h
      | ok output =>
        simp only
        have hw := Write_status (s.w.SetHeader (ascii "Content-Type") (ascii "application/json"))
          output h
        rcases hw2 : (s.w.SetHeader (ascii "Content-Type") (ascii "application/json")).Write
          output with ⟨w, _ | err⟩
        · rw [hw2] at hw; exact Or.inr hw
        · rw [hw2] at hw; exact Or.inr hw
    · rw [handlerBody_html env r s resp hs hf]
      have hfr := decodeHits_frame env resp.Hits.Hits s []
      rcases hd : decodeHits env resp.Hits.Hits s [] with ⟨s1, res⟩
      rw [hd] at hfr
      simp only at hfr
      cases res with
      | error pv => exact Or.inl (by rw [hfr.1]; exact h)
      | ok results =>
        simp only
        cases maxpages resp.Hits.Total env.PerPage with
        | error pv => exact Or.inl (by rw [hfr.1]; exact h)
        | ok mp => exact Or.inr (Write_status _ _ (by rw [hfr.1]; exact h))

theorem deferred_executed {Filter : Type} (s : World Filter) (panicking : Option PanicValue) :
    (deferred s panicking).1.executed = s.executed
      ∧ (deferred s panicking).1.unmarshalled = s.unmarshalled
      ∧ (deferred s panicking).1.marshalled = s.marshalled := by
  rcases panicking with _ | pv
  · exact ⟨rfl, rfl, rfl⟩
  · cases pv <;> exact ⟨rfl, rfl, rfl⟩

theorem handler_html_abort {Filter : Type} (env : Env Filter) (r : Request)
    (s : World Filter) (resp : SearchResult) (h : searchCall env r = .ok resp)
    (hf : r.FormValue (ascii "format") ≠ ascii "json")
    (hbad : ∃ qr ∈ resp.Hits.Hits, ¬ decodes env qr) :
    ∃ pv, (decodeHits env resp.Hits.Hits s []).2 = .error pv
      ∧ Handler env r s = deferred (decodeHits env resp.Hits.Hits s []).1 (some pv) := by
  obtain ⟨pv, hpv⟩ := decodeHits_error_of_not_decodes env resp.Hits.Hits hbad s []
  refine ⟨pv, hpv, ?_⟩
  unfold Handler
  rw [handlerBody_html env r s resp h hf]
  rcases hd : decodeHits env resp.Hits.Hits s [] with ⟨s1, res⟩
  rw [hd] at hpv
  simp only at hpv
  subst hpv
  rfl

/-- C8: on the HTML path, when at least one hit of the backend's hit list does
not decode, the template is never executed and no panic leaves the handler;
the response writer is either untouched or holds only the error response of
the nil-pointer panic raised by a hit without payload; and when every hit has
a payload the response writer is untouched and exactly one line is logged. -/
theorem html_decode_failure_aborts {Filter : Type} (env : Env Filter) (r : Request)
    (broken : Option GoError) (resp : SearchResult)
    (hsearch : searchCall env r = .ok resp)
    (hformat : r.FormValue (ascii "format") ≠ ascii "json")
    (hfail : ∃ qr ∈ resp.Hits.Hits, ¬ decodes env qr) :
    (Handler env r (World.fresh Filter broken)).1.executed = []
      ∧ (Handler env r (World.fresh Filter broken)).2 = none
      ∧ ((Handler env r (World.fresh Filter broken)).1.w = (World.fresh Filter broken).w
          ∨ (Handler env r (World.fresh Filter broken)).1.w
              = httpError (World.fresh Filter broken).w
                  (ascii "runtime error: invalid memory address or nil pointer dereference") 500)
      ∧ ((∀ qr ∈ resp.Hits.Hits, qr.Source ≠ none) →
          (Handler env r (World.fresh Filter broken)).1.w = (World.fresh Filter broken).w
            ∧ ∃ err : GoError, (Handler env r (World.fresh Filter broken)).1.log = [err.msg]) := by
  obtain ⟨pv, hpv, hH⟩ :=
    handler_html_abort env r (World.fresh Filter broken) resp hsearch hformat hfail
  have hfr := decodeHits_frame env resp.Hits.Hits (World.fresh Filter broken) []
  refine ⟨?_, handler_never_propagates _ _ _, ?_, ?_⟩
  · rw [hH, (deferred_executed _ _).1, hfr.2.1]; rfl
  · rw [hH]
    rcases decodeHits_error_kind env resp.Hits.Hits _ _ pv hpv with ⟨hnil, _⟩ | ⟨err, hstr, _⟩
    · subst hnil
      right
      show httpError (decodeHits env resp.Hits.Hits (World.fresh Filter broken) []).1.w _ 500 = _
      rw [hfr.1]
    · subst hstr
      left
      exact hfr.1
  · intro hsrc
    obtain ⟨err, hpe, hlog⟩ := decodeHits_error_string env resp.Hits.Hits hsrc _ _ pv hpv
    subst hpe
    rw [hH]
    refine ⟨?_, err, ?_⟩
    · show (decodeHits env resp.Hits.Hits (World.fresh Filter broken) []).1.w = _
      exact hfr.1
    · show (decodeHits env resp.Hits.Hits (World.fresh Filter broken) []).1.log = _
      rw [hlog]; rfl

theorem html_decode_failure_aborts_witness :
    (Handler (sampleEnv 10) (searchRequest "q=mixed") (World.fresh _ none)).1.executed = []
      ∧ (Handler (sampleEnv 10) (searchRequest "q=mixed") (World.fresh _ none)).2 = none :=
  have h := html_decode_failure_aborts (sampleEnv 10) (searchRequest "q=mixed") none
    mixedResponse (by decide) (by decide)
    ⟨⟨some (ascii "bad")⟩, by decide, fun ⟨raw, result, hraw, hres⟩ => by
      cases hraw
      have hbad : (sampleEnv 10).Unmarshal (ascii "bad")
          = .error ⟨ascii "invalid character b"⟩ := by decide
      rw [hbad] at hres
      cases hres⟩
  ⟨h.1, h.2.1⟩

/-- C1, evaluated where the claim fails: when the backend call, `json.Marshal`
or the decoding of a payload returns an error, the handler logs one line and
writes neither a status nor a body (the panic raised by `Log.Panic` carries a
string, which the deferred function does not treat as an error). -/
theorem fatal_error_leaves_response_unwritten :
    ((Handler (sampleEnv 10) (searchRequest "q=down") (World.fresh _ none)).1.log
        = [ascii "backend down"]
      ∧ (Handler (sampleEnv 10) (searchRequest "q=down") (World.fresh _ none)).1.w
        = (World.fresh (List GoString) none).w)
    ∧ ((Handler (sampleEnv 10) (searchRequest "q=mixed&format=json") (World.fresh _ none)).1.log
        = [ascii "invalid character b"]
      ∧ (Handler (sampleEnv 10) (searchRequest "q=mixed&format=json") (World.fresh _ none)).1.w
        = (World.fresh (List GoString) none).w)
    ∧ ((Handler (sampleEnv 10) (searchRequest "q=mixed") (World.fresh _ none)).1.log
        = [ascii "invalid character b"]
      ∧ (Handler (sampleEnv 10) (searchRequest "q=mixed") (World.fresh _ none)).1.w
        = (World.fresh (List GoString) none).w) := by
  decide

/-- C10: the deferred function stops every panic; it appends the log line of
`err` exactly when the body panicked with the error value `err`, and then
passes `err.Error()` with status 500 to `http.Error`, which on a writer whose
header is unwritten fixes the status 500 and on a live connection appends the
text and a newline to the body; on every other outcome of the body (no panic,
or a panic with a string) it leaves log and response writer as they were.
No panic leaves `Handler`. -/
theorem deferred_boundary {Filter : Type} (s : World Filter) (panicking : Option PanicValue) :
    (deferred s panicking).2 = none
      ∧ (∀ err : GoError, panicking = some (.error err) ↔
          (deferred s panicking).1.log = s.log ++ [err.msg])
      ∧ (∀ err : GoError, panicking = some (.error err) →
          (deferred s panicking).1.w = httpError s.w err.msg 500
            ∧ (s.w.status = none → (deferred s panicking).1.w.status = some 500
                ∧ (s.w.broken = none →
                    (deferred s panicking).1.w.body = s.w.body ++ err.msg ++ [10])))
      ∧ ((∀ err : GoError, panicking ≠ some (.error err)) → (deferred s panicking).1 = s)
      ∧ (∀ (env : Env Filter) (r : Request), (Handler env r s).2 = none)
      ∧ (∀ (env : Env Filter) (r : Request) (broken : Option GoError),
          (Handler env r (World.fresh Filter broken)).1.w.status = some 500
            ↔ ∃ err : GoError,
                (handlerBody env r (World.fresh Filter broken)).2 = some (.error err)) := by
  refine ⟨?_, ?_, ?_, ?_, fun env r => handler_never_propagates env r s, ?_⟩
  · rcases panicking with _ | pv
    · rfl
    · cases pv <;> rfl
  · intro err
    rcases panicking with _ | pv
    · simp [deferred, recover]
    · cases pv with
      | error e =>
        simp only [deferred, recover, World.Println, Option.some.injEq, PanicValue.error.injEq]
        constructor
        · intro h; rw [h]
        · intro h
          have := List.append_cancel_left h
          simp only [List.cons.injEq, and_true] at this
          cases e; cases err; simp_all
      | string x => simp [deferred, recover]
  · intro err h
    subst h
    refine ⟨rfl, fun hst => ?_⟩
    simp only [deferred, recover, World.Println, httpError, ResponseWriter.Write,
      ResponseWriter.WriteHeader, ResponseWriter.SetHeader, hst]
    refine ⟨?_, fun hb => ?_⟩
    · cases s.w.broken <;> rfl
    · simp [hb]
  · intro h
    rcases panicking with _ | pv
    · rfl
    · cases pv with
      | error e => exact absurd rfl (h e)
      | string x => rfl
  · intro env r broken
    have hst := handlerBody_status env r (World.fresh Filter broken) rfl
    constructor
    · intro h500
      unfold Handler at h500
      rcases hb : handlerBody env r (World.fresh Filter broken) with ⟨s1, _ | pv⟩
      · rw [hb] at h500 hst
        simp only [deferred, recover] at h500 hst
        rcases hst with hst | hst <;> rw [hst] at h500 <;> cases h500
      · cases pv with
        | error e => exact ⟨e, rfl⟩
        | string x =>
          rw [hb] at h500 hst
          simp only [deferred, recover] at h500 hst
          rcases hst with hst | hst <;> rw [hst] at h500 <;> cases h500
    · rintro ⟨err, herr⟩
      have hw := (handlerBody_error_panic env r _ err herr).1
      unfold Handler
      rcases hb : handlerBody env r (World.fresh Filter broken) with ⟨s1, p⟩
      rw [hb] at herr hw
      simp only at herr hw
      subst herr
      simp only [deferred, recover, World.Println, hw]
      simp only [httpError, ResponseWriter.Write, ResponseWriter.WriteHeader,
        ResponseWriter.SetHeader, World.fresh]
      cases broken <;> rfl

theorem deferred_boundary_witness :
    (deferred (World.fresh (List GoString) none) (some (.string (ascii "backend down"))))
        = (World.fresh (List GoString) none, none)
      ∧ (deferred (World.fresh (List GoString) none)
          (some (.error ⟨ascii "boom"⟩))).1.w.status = some 500 :=
  have h1 := deferred_boundary (World.fresh (List GoString) none)
    (some (.string (ascii "backend down")))
  have h2 := deferred_boundary (World.fresh (List GoString) none)
    (some (.error ⟨ascii "boom"⟩))
  ⟨Prod.ext (h1.2.2.2.1 (fun err => by simp)) h1.1, ((h2.2.2.1 ⟨ascii "boom"⟩ rfl).2 rfl).1⟩

/-! ### Format dispatch -/

theorem handler_json_trace {Filter : Type} (env : Env Filter) (r : Request) (s : World Filter)
    (hf : r.FormValue (ascii "format") = ascii "json") :
    (Handler env r s).1.unmarshalled = s.unmarshalled
      ∧ (Handler env r s).1.executed = s.executed := by
  unfold Handler
  simp only [(deferred_executed _ _).1, (deferred_executed _ _).2.1]
  cases hs : searchCall env r with
  | error err => rw [handlerBody_search_error env r s err hs]; exact ⟨rfl, rfl⟩
  | ok resp =>
    rw [handlerBody_json env r s resp hs hf]
    cases env.Marshal resp.Hits with
    | error err => exact ⟨rfl, rfl⟩
    | ok output =>
      simp only
      rcases (s.w.SetHeader (ascii "Content-Type") (ascii "application/json")).Write output
        with ⟨w, _ | err⟩ <;> exact ⟨rfl, rfl⟩

theorem handler_html_trace {Filter : Type} (env : Env Filter) (r : Request) (s : World Filter)
    (hf : r.FormValue (ascii "format") ≠ ascii "json") :
    (Handler env r s).1.marshalled = s.marshalled
      ∧ ∀ resp, searchCall env r = .ok resp →
          (Handler env r s).1.unmarshalled = s.unmarshalled ++ attempted env resp.Hits.Hits := by
  unfold Handler
  simp only [(deferred_executed _ _).2.2, (deferred_executed _ _).2.1]
  cases hs : searchCall env r with
  | error err =>
    rw [handlerBody_search_error env r s err hs]
    exact ⟨rfl, fun resp h => by cases h⟩
  | ok resp =>
    rw [handlerBody_html env r s resp hs hf]
    have hfr := decodeHits_frame env resp.Hits.Hits s []
    have hun := decodeHits_unmarshalled env resp.Hits.Hits s []
    rcases hd : decodeHits env resp.Hits.Hits s [] with ⟨s1, res⟩
    rw [hd] at hfr hun
    simp only at hfr hun
    have key : ∀ resp2, Except.ok (ε := GoError) resp = .ok resp2 →
        s1.unmarshalled = s.unmarshalled ++ attempted env resp2.Hits.Hits := by
      intro resp2 h
      cases h
      exact hun
    cases res with
    | error pv => exact ⟨hfr.2.2, key⟩
    | ok results =>
      simp only
      cases maxpages resp.Hits.Total env.PerPage with
      | error pv => exact ⟨hfr.2.2, key⟩
      | ok mp => exact ⟨hfr.2.2, key⟩

theorem handler_html_ok {Filter : Type} (env : Env Filter) (r : Request) (s : World Filter)
    (resp : SearchResult) (hs : searchCall env r = .ok resp)
    (hf : r.FormValue (ascii "format") ≠ ascii "json")
    (hall : ∀ qr ∈ resp.Hits.Hits, decodes env qr) (hpp : env.PerPage ≠ 0) :
    Handler env r s =
      ({ s with
          unmarshalled := s.unmarshalled ++ attempted env resp.Hits.Hits,
          w := (s.w.Write (env.template (pageContext env r (r.FormValue (ascii "q"))
                  (env.decodeFilter (r.Form.index (ascii "f")))
                  (decodePage (r.FormValue (ascii "p"))) resp
                  (resp.Hits.Hits.filterMap (resultOf env))
                  (wrapInt (Int.tdiv resp.Hits.Total env.PerPage))))).1,
          executed := s.executed ++ [pageContext env r (r.FormValue (ascii "q"))
                  (env.decodeFilter (r.Form.index (ascii "f")))
                  (decodePage (r.FormValue (ascii "p"))) resp
                  (resp.Hits.Hits.filterMap (resultOf env))
                  (wrapInt (Int.tdiv resp.Hits.Total env.PerPage))] }, none) := by
  unfold Handler
  rw [handlerBody_html env r s resp hs hf, decodeHits_ok env resp.Hits.Hits hall]
  simp only [maxpages, hpp, if_false, List.nil_append]
  rfl

/-- C7 (as stated, refuted): with the format parameter absent, the template is
not executed when the backend call fails, nor when a payload fails to decode,
nor when `PerPage` is zero. -/
theorem html_path_not_always_taken :
    (searchRequest "q=down").FormValue (ascii "format") ≠ ascii "json"
      ∧ (Handler (sampleEnv 10) (searchRequest "q=down") (World.fresh _ none)).1.unmarshalled = []
      ∧ (Handler (sampleEnv 10) (searchRequest "q=down") (World.fresh _ none)).1.executed = []
      ∧ (Handler (sampleEnv 10) (searchRequest "q=mixed") (World.fresh _ none)).1.executed = []
      ∧ (Handler (sampleEnv 0) (searchRequest "q=report") (World.fresh _ none)).1.executed = [] := by
  decide

/-- C7 (amended): with format `json` no payload is decoded and the template is
not executed; with any other format `json.Marshal` is not called and, when the
backend call succeeds, the payloads of the hits are decoded in order up to the
first that fails, and when all decode and `PerPage` is not zero the template
is executed exactly once, on the results of all hits. -/
theorem format_dispatch {Filter : Type} (env : Env Filter) (r : Request)
    (broken : Option GoError) :
    (r.FormValue (ascii "format") = ascii "json" →
        (Handler env r (World.fresh Filter broken)).1.unmarshalled = []
          ∧ (Handler env r (World.fresh Filter broken)).1.executed = [])
      ∧ (r.FormValue (ascii "format") ≠ ascii "json" →
          (Handler env r (World.fresh Filter broken)).1.marshalled = []
            ∧ ∀ resp, searchCall env r = .ok resp →
                (Handler env r (World.fresh Filter broken)).1.unmarshalled
                    = attempted env resp.Hits.Hits
                  ∧ ((∀ qr ∈ resp.Hits.Hits, decodes env qr) → env.PerPage ≠ 0 →
                      ∃ ctx, (Handler env r (World.fresh Filter broken)).1.executed = [ctx]
                        ∧ ctx.response = resp
                        ∧ ctx.results = resp.Hits.Hits.filterMap (resultOf env))) := by
  refine ⟨fun hf => handler_json_trace env r _ hf, fun hf => ?_⟩
  have ht := handler_html_trace env r (World.fresh Filter broken) hf
  refine ⟨ht.1, fun resp hs => ⟨by rw [ht.2 resp hs]; rfl, fun hall hpp => ?_⟩⟩
  rw [handler_html_ok env r _ resp hs hf hall hpp]
  exact ⟨_, rfl, rfl, rfl⟩

theorem format_dispatch_witness :
    (Handler (sampleEnv 10) (searchRequest "q=report&format=json")
        (World.fresh _ none)).1.executed = []
      ∧ (Handler (sampleEnv 10) (searchRequest "q=report&format=JSON")
        (World.fresh _ none)).1.marshalled = []
      ∧ (Handler (sampleEnv 10) (searchRequest "q=report&format=JSON")
        (World.fresh _ none)).1.unmarshalled = attempted (sampleEnv 10) goodResponse.Hits.Hits :=
  ⟨((format_dispatch (sampleEnv 10) (searchRequest "q=report&format=json") none).1
      (by decide)).2,
    ((format_dispatch (sampleEnv 10) (searchRequest "q=report&format=JSON") none).2
      (by decide)).1,
    (((format_dispatch (sampleEnv 10) (searchRequest "q=report&format=JSON") none).2
      (by decide)).2 goodResponse (by decide)).1⟩

/-! ### The JSON response -/

/-- C2 (as stated, refuted): for `format=json` and a successful backend call
the body is the encoding of the whole `resp.Hits` struct, an object holding the
total and the hits, not the array of the raw payloads; and when `json.Marshal`
fails after a successful backend call no status and no content type is written. -/
theorem json_body_is_not_payload_array :
    (searchCall (sampleEnv 10) (searchRequest "q=report&p=2&format=json") = .ok goodResponse
      ∧ (Handler (sampleEnv 10) (searchRequest "q=report&p=2&format=json")
          (World.fresh _ none)).1.w.body
        = ascii ("\x7b\"Total\":50,\"Hits\":[\x7b\"Source\":\x7b\"size\":1\x7d\x7d,"
            ++ "\x7b\"Source\":\x7b\"size\":2\x7d\x7d,\x7b\"Source\":\x7b\"size\":3\x7d\x7d]\x7d")
      ∧ (Handler (sampleEnv 10) (searchRequest "q=report&p=2&format=json")
          (World.fresh _ none)).1.w.body
        ≠ payloadArray goodResponse.Hits.Hits)
    ∧ (searchCall (sampleEnv 10) (searchRequest "q=mixed&format=json") = .ok mixedResponse
      ∧ (Handler (sampleEnv 10) (searchRequest "q=mixed&format=json")
          (World.fresh _ none)).1.w.status = none
      ∧ (Handler (sampleEnv 10) (searchRequest "q=mixed&format=json")
          (World.fresh _ none)).1.w.sentHeader = []) := by
  decide

/-- C2 (amended): for `format=json`, a successful backend call, a successful
`json.Marshal(resp.Hits)` and a live connection, the handler answers with
status 200, sends the single header `Content-Type: application/json`, writes as
body exactly the bytes `json.Marshal` returned for `resp.Hits`, logs nothing
and ends without a panic. -/
theorem json_response {Filter : Type} (env : Env Filter) (r : Request) (resp : SearchResult)
    (output : GoString) (hsearch : searchCall env r = .ok resp)
    (hformat : r.FormValue (ascii "format") = ascii "json")
    (hmarshal : env.Marshal resp.Hits = .ok output) :
    (Handler env r (World.fresh Filter none)).1.w.status = some 200
      ∧ (Handler env r (World.fresh Filter none)).1.w.sentHeader
          = [(ascii "Content-Type", ascii "application/json")]
      ∧ (Handler env r (World.fresh Filter none)).1.w.body = output
      ∧ (Handler env r (World.fresh Filter none)).1.marshalled = [resp.Hits]
      ∧ (Handler env r (World.fresh Filter none)).1.log = []
      ∧ (Handler env r (World.fresh Filter none)).2 = none := by
  unfold Handler
  rw [handlerBody_json env r _ resp hsearch hformat, hmarshal]
  simp [World.fresh, ResponseWriter.Write, ResponseWriter.WriteHeader,
    ResponseWriter.SetHeader, deferred, recover]

theorem json_response_witness :
    (Handler (sampleEnv 10) (searchRequest "q=report&p=2&format=json")
        (World.fresh _ none)).1.w.status = some 200
      ∧ (Handler (sampleEnv 10) (searchRequest "q=report&p=2&format=json")
        (World.fresh _ none)).1.w.body = marshalSearchHits goodResponse.Hits :=
  have h := json_response (sampleEnv 10) (searchRequest "q=report&p=2&format=json")
    goodResponse (marshalSearchHits goodResponse.Hits) (by decide) (by decide) (by decide)
  ⟨h.1, h.2.2.1⟩

/-! ### The pagination window -/

theorem wrapInt_of_inInt (x : Int) (h : inInt x) : wrapInt x = x := by
  unfold inInt at h
  unfold wrapInt
  omega

theorem handler_executed_cases {Filter : Type} (env : Env Filter) (r : Request)
    (s : World Filter) (ctx : Context Filter) (hctx : ctx ∈ (Handler env r s).1.executed) :
    ctx ∈ s.executed ∨ ∃ resp results mp, searchCall env r = .ok resp
      ∧ maxpages resp.Hits.Total env.PerPage = .ok mp
      ∧ ctx = pageContext env r (r.FormValue (ascii "q"))
                (env.decodeFilter (r.Form.index (ascii "f")))
                (decodePage (r.FormValue (ascii "p"))) resp results mp := by
  unfold Handler at hctx
  rw [(deferred_executed _ _).1] at hctx
  cases hs : searchCall env r with
  | error err =>
    rw [handlerBody_search_error env r s err hs] at hctx
    exact Or.inl hctx
  | ok resp =>
    by_cases hf : r.FormValue (ascii "format") = ascii "json"
    · have := (handler_json_trace env r s hf).2
      unfold Handler at this
      rw [(deferred_executed _ _).1] at this
      rw [this] at hctx
      exact Or.inl hctx
    · rw [handlerBody_html env r s resp hs hf] at hctx
      have hfr := decodeHits_frame env resp.Hits.Hits s []
      rcases hd : decodeHits env resp.Hits.Hits s [] with ⟨s1, res⟩
      rw [hd] at hfr hctx
      simp only at hfr
      cases res with
      | error pv =>
        simp only at hctx
        rw [hfr.2.1] at hctx
        exact Or.inl hctx
      | ok results =>
        simp only at hctx
        cases hm : maxpages resp.Hits.Total env.PerPage with
        | error pv =>
          rw [hm] at hctx
          simp only at hctx
          rw [hfr.2.1] at hctx
          exact Or.inl hctx
        | ok mp =>
          rw [hm] at hctx
          simp only [List.mem_append, List.mem_singleton] at hctx
          rcases hctx with hctx | hctx
          · rw [hfr.2.1] at hctx
            exact Or.inl hctx
          · exact Or.inr ⟨resp, results, mp, rfl, hm, hctx⟩

/-- C6 (as stated, refuted): with `PerPage = 0` computing `maxpages` panics;
the quotient is truncated toward zero, so for a negative total it is not the
floor; and the product `PerPage * page` wraps around in `int` arithmetic. -/
theorem window_not_floor_nor_total :
    maxpages 50 0 = .error divideByZero
      ∧ (Handler (sampleEnv 0) (searchRequest "q=report&p=2") (World.fresh _ none)).1.w.status
          = some 500
      ∧ (maxpages (-7) 2 = .ok (-3) ∧ Int.fdiv (-7) 2 = -4)
      ∧ (decodePage (ascii "4611686018427387904") = 4611686018427387904
          ∧ frompage 10 4611686018427387904 = -9223372036854775808
          ∧ (10 : Int) * 4611686018427387904 = 46116860184273879040) := by
  decide

/-- C6 (amended): every context the handler hands to the template was built
with `PerPage ≠ 0`, for the decoded page, with `frompage` the product
`PerPage * page` reduced to the `int` range, equal to the product whenever it
fits, and with `maxpages` the quotient `Total / PerPage` truncated toward zero,
equal to the floor of the quotient whenever the total is a non-negative `int`
and `PerPage` is positive; and for every `PerPage ≠ 0` computing the quotient
raises no error. -/
theorem pagination_window {Filter : Type} (env : Env Filter) (r : Request)
    (broken : Option GoError) (ctx : Context Filter)
    (hctx : ctx ∈ (Handler env r (World.fresh Filter broken)).1.executed) :
    env.PerPage ≠ 0
      ∧ searchCall env r = .ok ctx.response
      ∧ ctx.page = decodePage (r.FormValue (ascii "p"))
      ∧ ctx.frompage = wrapInt (env.PerPage * ctx.page)
      ∧ ctx.maxpages = wrapInt (Int.tdiv ctx.response.Hits.Total env.PerPage)
      ∧ (inInt (env.PerPage * ctx.page) → ctx.frompage = env.PerPage * ctx.page)
      ∧ (0 ≤ ctx.response.Hits.Total → ctx.response.Hits.Total ≤ 2 ^ 63 - 1 → 0 < env.PerPage →
          ctx.maxpages = Int.fdiv ctx.response.Hits.Total env.PerPage)
      ∧ (∀ total perPage : Int, perPage ≠ 0 →
          maxpages total perPage = .ok (wrapInt (Int.tdiv total perPage))) := by
  rcases handler_executed_cases env r _ ctx hctx with h | ⟨resp, results, mp, hs, hm, hc⟩
  · simp [World.fresh] at h
  · have hpp : env.PerPage ≠ 0 := by
      intro h0
      simp [maxpages, h0] at hm
    have hmp : mp = wrapInt (Int.tdiv resp.Hits.Total env.PerPage) := by
      simp only [maxpages, hpp, if_false] at hm
      injection hm with hm
      exact hm.symm
    subst hc
    refine ⟨hpp, hs, rfl, rfl, hmp, fun hin => wrapInt_of_inInt _ hin, fun h0 hmax hpos => ?_,
      fun total perPage h => by simp [maxpages, h]⟩
    have h0 : 0 ≤ resp.Hits.Total := h0
    have hmax : resp.Hits.Total ≤ 2 ^ 63 - 1 := hmax
    show mp = Int.fdiv resp.Hits.Total env.PerPage
    rw [hmp, Int.tdiv_eq_ediv h0 (le_of_lt hpos), Int.fdiv_eq_ediv _ (le_of_lt hpos)]
    apply wrapInt_of_inInt
    have h1 := Int.ediv_nonneg h0 (le_of_lt hpos)
    have h2 := Int.ediv_le_self env.PerPage h0
    unfold inInt
    omega

theorem pagination_window_witness :
    (pageContext (sampleEnv 10) (searchRequest "q=report&p=2") (ascii "report") []
        2 goodResponse (goodResponse.Hits.Hits.filterMap (resultOf (sampleEnv 10))) 5).frompage = 20
      ∧ (pageContext (sampleEnv 10) (searchRequest "q=report&p=2") (ascii "report") []
        2 goodResponse (goodResponse.Hits.Hits.filterMap (resultOf (sampleEnv 10))) 5).maxpages
          = Int.fdiv 50 10 :=
  have h := pagination_window (sampleEnv 10) (searchRequest "q=report&p=2") none
    (pageContext (sampleEnv 10) (searchRequest "q=report&p=2") (ascii "report") []
      2 goodResponse (goodResponse.Hits.Hits.filterMap (resultOf (sampleEnv 10))) 5)
    (by decide)
  ⟨h.2.2.2.2.2.1 (by decide), h.2.2.2.2.2.2.1 (by decide) (by decide) (by decide)⟩

/-! ### Page decoding -/

theorem decimalValueFrom_ge (ds : GoString) : ∀ n, n ≤ decimalValueFrom n ds := by
  induction ds with
  | nil => intro n; exact le_refl n
  | cons c cs ih =>
    intro n
    have h := ih (n * 10 + (c.val - 48))
    simp only [decimalValueFrom, List.foldl_cons] at h ⊢
    omega

theorem parseUintLoop_digits (ds : GoString) (hds : ds.all isDigit = true) :
    ∀ n, n < 2 ^ 64 →
      (decimalValueFrom n ds < 2 ^ 64 → parseUintLoop n ds = .ok (decimalValueFrom n ds))
        ∧ (2 ^ 64 ≤ decimalValueFrom n ds → parseUintLoop n ds = .error .ErrRange) := by
  induction ds with
  | nil =>
    intro n hn
    refine ⟨fun _ => rfl, fun h => ?_⟩
    have : decimalValueFrom n [] = n := rfl
    omega
  | cons c cs ih =>
    intro n hn
    simp only [List.all_cons, Bool.and_eq_true] at hds
    obtain ⟨hc, hcs⟩ := hds
    have hc2 : 48 ≤ c.val ∧ c.val ≤ 57 := by
      simpa [isDigit] using hc
    have hge := decimalValueFrom_ge cs (n * 10 + (c.val - 48))
    have hstep : decimalValueFrom n (c :: cs) = decimalValueFrom (n * 10 + (c.val - 48)) cs := rfl
    rw [hstep]
    simp only [parseUintLoop, hc2, and_self, if_true]
    by_cases hcut : 1844674407370955162 ≤ n
    · rw [if_pos hcut]
      exact ⟨fun h => by omega, fun _ => rfl⟩
    · rw [if_neg hcut]
      by_cases hwrap : (n * 10 + (c.val - 48)) % 2 ^ 64 < n * 10
      · rw [if_pos hwrap]
        refine ⟨fun h => ?_, fun _ => rfl⟩
        have : (n * 10 + (c.val - 48)) % 2 ^ 64 = n * 10 + (c.val - 48) :=
          Nat.mod_eq_of_lt (by omega)
        omega
      · rw [if_neg hwrap]
        have hlt : n * 10 + (c.val - 48) < 2 ^ 64 := by
          by_contra hcon
          apply hwrap
          omega
        rw [Nat.mod_eq_of_lt hlt]
        exact ih hcs _ hlt

theorem parseUintLoop_not_digits (ds : GoString) (hds : ds.all isDigit = false) :
    ∀ n, ∃ e, parseUintLoop n ds = .error e := by
  induction ds with
  | nil => simp at hds
  | cons c cs ih =>
    intro n
    by_cases hc : 48 ≤ c.val ∧ c.val ≤ 57
    · have hcs : cs.all isDigit = false := by
        have : isDigit c = true := by simp [isDigit, hc]
        simpa [List.all_cons, this] using hds
      simp only [parseUintLoop, hc, and_self, if_true]
      by_cases hcut : 1844674407370955162 ≤ n
      · simp only [hcut, if_true]; exact ⟨_, rfl⟩
      · simp only [hcut, if_false]
        by_cases hwrap : (n * 10 + (c.val - 48)) % 2 ^ 64 < n * 10
        · simp only [hwrap, if_true]; exact ⟨_, rfl⟩
        · simp only [hwrap, if_false]; exact ih hcs _
    · simp only [parseUintLoop, hc, if_false]
      exact ⟨_, rfl⟩

theorem parseIntTail_page (neg : Bool) (t : GoString) :
    (match parseIntTail neg t with
      | .ok page => page
      | .error _ => 0)
      = if t ≠ [] ∧ t.all isDigit = true then
          (if inInt (if neg then - (decimalValueFrom 0 t : Int) else (decimalValueFrom 0 t : Int))
            then (if neg then - (decimalValueFrom 0 t : Int) else (decimalValueFrom 0 t : Int))
            else 0)
        else 0 := by
  by_cases ht : t = []
  · subst ht
    simp [parseIntTail, ParseUint]
  · cases hd : t.all isDigit with
    | false =>
      obtain ⟨e, he⟩ := parseUintLoop_not_digits t hd 0
      simp [parseIntTail, ParseUint, ht, he]
    | true =>
      have hspec := parseUintLoop_digits t hd 0 (by norm_num)
      simp only [ne_eq, ht, not_false_eq_true, and_self, if_true]
      by_cases hv : decimalValueFrom 0 t < 2 ^ 64
      · have hok := hspec.1 hv
        simp only [parseIntTail, ParseUint, ht, if_false, hok]
        cases neg with
        | false =>
          simp only [true_and, false_and, if_false, Bool.false_eq_true]
          by_cases hr : 2 ^ 63 ≤ decimalValueFrom 0 t
          · have : ¬ inInt (decimalValueFrom 0 t : Int) := by
              unfold inInt; push_cast; omega
            rw [if_pos hr, if_neg this]
          · have : inInt (decimalValueFrom 0 t : Int) := by
              unfold inInt; push_cast; omega
            rw [if_neg hr, if_pos this]
        | true =>
          simp only [true_and, false_and, if_false, if_true, Bool.true_eq_false]
          by_cases hr : 2 ^ 63 < decimalValueFrom 0 t
          · have : ¬ inInt (- (decimalValueFrom 0 t : Int)) := by
              unfold inInt; push_cast; omega
            rw [if_pos hr, if_neg this]
          · have : inInt (- (decimalValueFrom 0 t : Int)) := by
              unfold inInt; push_cast; omega
            rw [if_neg hr, if_pos this]
      · have herr := hspec.2 (by omega)
        have h1 : ¬ inInt (decimalValueFrom 0 t : Int) := by
          unfold inInt; push_cast; omega
        have h2 : ¬ inInt (- (decimalValueFrom 0 t : Int)) := by
          unfold inInt; push_cast; omega
        cases neg <;> simp [parseIntTail, ParseUint, ht, herr, h1, h2]

theorem decodePage_eq (p : GoString) :
    decodePage p =
      match decimalInt p with
      | some n => if inInt n then n else 0
      | none => 0 := by
  cases p with
  | nil => rfl
  | cons c rest =>
    unfold decodePage
    by_cases h43 : c = 43
    · subst h43
      have e1 : Atoi (43 :: rest) = parseIntTail false rest := rfl
      have e2 : decimalInt (43 :: rest)
          = if rest ≠ [] ∧ rest.all isDigit = true
              then some (decimalValueFrom 0 rest : Int) else none := rfl
      rw [e1, e2, parseIntTail_page false rest]
      by_cases hc : rest ≠ [] ∧ rest.all isDigit = true
      · rw [if_pos hc, if_pos hc]; rfl
      · rw [if_neg hc, if_neg hc]
    · by_cases h45 : c = 45
      · subst h45
        have e1 : Atoi (45 :: rest) = parseIntTail true rest := rfl
        have e2 : decimalInt (45 :: rest)
            = if rest ≠ [] ∧ rest.all isDigit = true
                then some (- (decimalValueFrom 0 rest : Int)) else none := rfl
        rw [e1, e2, parseIntTail_page true rest]
        by_cases hc : rest ≠ [] ∧ rest.all isDigit = true
        · rw [if_pos hc, if_pos hc]; rfl
        · rw [if_neg hc, if_neg hc]
      · have e1 : Atoi (c :: rest) = parseIntTail false (c :: rest) := by
          simp only [Atoi, h43, h45, if_false]
        have e2 : decimalInt (c :: rest)
            = if (c :: rest).all isDigit = true
                then some (decimalValueFrom 0 (c :: rest) : Int) else none := by
          simp only [decimalInt, h43, h45, if_false]
        rw [e1, e2, parseIntTail_page false (c :: rest)]
        by_cases hc : (c :: rest).all isDigit = true
        · rw [if_pos ⟨List.cons_ne_nil _ _, hc⟩, if_pos hc]; rfl
        · rw [if_neg (fun h => hc h.2), if_neg hc]

/-- C5: the page decoded from the form value of `p` is `0` when `p` is absent,
when it is empty, when it is not a decimal integer and when the integer it
denotes does not fit in an `int`; and it is the integer `p` denotes whenever
that integer fits in an `int`, whatever its size. -/
theorem page_decoding (r : Request) :
    (r.Form.index (ascii "p") = [] → decodePage (r.FormValue (ascii "p")) = 0)
      ∧ (r.FormValue (ascii "p") = [] → decodePage (r.FormValue (ascii "p")) = 0)
      ∧ (decimalInt (r.FormValue (ascii "p")) = none → decodePage (r.FormValue (ascii "p")) = 0)
      ∧ (∀ n, decimalInt (r.FormValue (ascii "p")) = some n → ¬ inInt n →
          decodePage (r.FormValue (ascii "p")) = 0)
      ∧ (∀ n, decimalInt (r.FormValue (ascii "p")) = some n → inInt n →
          decodePage (r.FormValue (ascii "p")) = n) := by
  refine ⟨fun h => ?_, fun h => ?_, fun h => ?_, fun n h hn => ?_, fun n h hn => ?_⟩
  · have : r.FormValue (ascii "p") = [] := by
      unfold Request.FormValue Values.Get
      rw [h]
    rw [this]; rfl
  · rw [h]; rfl
  · rw [decodePage_eq, h]
  · rw [decodePage_eq, h]
    exact if_neg hn
  · rw [decodePage_eq, h]
    exact if_pos hn

theorem page_decoding_witness :
    decodePage ((searchRequest "q=x").FormValue (ascii "p")) = 0
      ∧ decodePage ((searchRequest "q=x&p=abc").FormValue (ascii "p")) = 0
      ∧ decodePage ((searchRequest "q=x&p=9223372036854775808").FormValue (ascii "p")) = 0
      ∧ decodePage ((searchRequest "q=x&p=9223372036854775807").FormValue (ascii "p"))
          = 9223372036854775807 :=
  ⟨(page_decoding (searchRequest "q=x")).1 (by decide),
    (page_decoding (searchRequest "q=x&p=abc")).2.2.1 (by decide),
    (page_decoding (searchRequest "q=x&p=9223372036854775808")).2.2.2.1
      9223372036854775808 (by decide) (by decide),
    (page_decoding (searchRequest "q=x&p=9223372036854775807")).2.2.2.2
      9223372036854775807 (by decide) (by decide)⟩

/-! ### Query escaping -/

theorem upperhex_val (n : Nat) (h : n < 16) :
    (upperhex n).val = if n < 10 then 48 + n else 55 + n := by
  unfold upperhex
  by_cases h10 : n < 10
  · rw [if_pos h10, if_pos h10]
    show (48 + n) % 256 = 48 + n
    omega
  · rw [if_neg h10, if_neg h10]
    show (55 + n) % 256 = 55 + n
    omega

theorem ishex_upperhex (n : Nat) (h : n < 16) : ishex (upperhex n) = true := by
  have hv := upperhex_val n h
  unfold ishex
  by_cases h10 : n < 10
  · rw [if_pos h10] at hv
    simp only [hv, Bool.or_eq_true, Bool.and_eq_true, decide_eq_true_eq]
    omega
  · rw [if_neg h10] at hv
    simp only [hv, Bool.or_eq_true, Bool.and_eq_true, decide_eq_true_eq]
    omega

theorem unhex_upperhex (n : Nat) (h : n < 16) : unhex (upperhex n) = n := by
  have hv := upperhex_val n h
  unfold unhex
  by_cases h10 : n < 10
  · rw [if_pos h10] at hv
    rw [hv, if_pos (by omega)]
    omega
  · rw [if_neg h10] at hv
    rw [hv, if_neg (by omega), if_neg (by omega), if_pos (by omega)]
    omega

theorem unreserved_of_not_shouldEscape (c : Byte) (h : shouldEscape c = false) :
    (97 ≤ c.val ∧ c.val ≤ 122) ∨ (65 ≤ c.val ∧ c.val ≤ 90) ∨ (48 ≤ c.val ∧ c.val ≤ 57)
      ∨ c.val = 45 ∨ c.val = 95 ∨ c.val = 46 ∨ c.val = 126 := by
  unfold shouldEscape at h
  simp only [Bool.not_eq_false', Bool.or_eq_true, Bool.and_eq_true, decide_eq_true_eq,
    beq_iff_eq] at h
  omega

theorem byte_ne_of_val_ne (c : Byte) (n : Nat) (hn : n < 256) (h : c.val ≠ n) :
    c ≠ (Fin.ofNat n : Byte) := by
  intro hc
  apply h
  rw [hc]
  show n % 256 = n
  omega

theorem escapeByte_cases (c : Byte) :
    (c = 32 ∧ escapeByte c = [43])
      ∨ (c ≠ 32 ∧ c ≠ 37 ∧ c ≠ 43 ∧ c ≠ 38 ∧ c ≠ 61 ∧ c ≠ 59 ∧ escapeByte c = [c])
      ∨ (escapeByte c = [37, upperhex (c.val / 16), upperhex (c.val % 16)]
          ∧ ishex (upperhex (c.val / 16)) = true ∧ ishex (upperhex (c.val % 16)) = true
          ∧ (Fin.ofNat (unhex (upperhex (c.val / 16)) * 16 + unhex (upperhex (c.val % 16)))
              : Byte) = c) := by
  have hc : c.val < 256 := c.isLt
  have hq : c.val / 16 < 16 := by omega
  have hr : c.val % 16 < 16 := by omega
  by_cases h32 : c = 32
  · exact Or.inl ⟨h32, by rw [h32]; rfl⟩
  · right
    cases hs : shouldEscape c with
    | true =>
      right
      refine ⟨by simp [escapeByte, h32, hs], ishex_upperhex _ hq, ishex_upperhex _ hr, ?_⟩
      rw [unhex_upperhex _ hq, unhex_upperhex _ hr]
      apply Fin.ext
      show (c.val / 16 * 16 + c.val % 16) % 256 = c.val
      omega
    | false =>
      left
      have hu := unreserved_of_not_shouldEscape c hs
      refine ⟨h32, byte_ne_of_val_ne c 37 (by omega) (by omega),
        byte_ne_of_val_ne c 43 (by omega) (by omega),
        byte_ne_of_val_ne c 38 (by omega) (by omega),
        byte_ne_of_val_ne c 61 (by omega) (by omega),
        byte_ne_of_val_ne c 59 (by omega) (by omega), by simp [escapeByte, h32, hs]⟩

theorem upperhex_clean (n : Nat) (h : n < 16) :
    upperhex n ≠ 38 ∧ upperhex n ≠ 61 ∧ upperhex n ≠ 59 := by
  have hv := upperhex_val n h
  have h38 : (upperhex n).val ≠ 38 := by
    by_cases h10 : n < 10
    · rw [if_pos h10] at hv; omega
    · rw [if_neg h10] at hv; omega
  have h61 : (upperhex n).val ≠ 61 := by
    by_cases h10 : n < 10
    · rw [if_pos h10] at hv; omega
    · rw [if_neg h10] at hv; omega
  have h59 : (upperhex n).val ≠ 59 := by
    by_cases h10 : n < 10
    · rw [if_pos h10] at hv; omega
    · rw [if_neg h10] at hv; omega
  exact ⟨byte_ne_of_val_ne _ 38 (by omega) h38, byte_ne_of_val_ne _ 61 (by omega) h61,
    byte_ne_of_val_ne _ 59 (by omega) h59⟩

theorem escapeByte_clean (c : Byte) : ∀ x ∈ escapeByte c, x ≠ 38 ∧ x ≠ 61 ∧ x ≠ 59 := by
  have hc : c.val < 256 := c.isLt
  intro x hx
  rcases escapeByte_cases c with ⟨_, he⟩ | ⟨_, _, _, h38, h61, h59, he⟩ | ⟨he, _⟩
  · rw [he] at hx
    simp only [List.mem_singleton] at hx
    subst hx
    decide
  · rw [he] at hx
    simp only [List.mem_singleton] at hx
    subst hx
    exact ⟨h38, h61, h59⟩
  · rw [he] at hx
    simp only [List.mem_cons, List.mem_singleton, List.not_mem_nil, or_false] at hx
    rcases hx with hx | hx | hx
    · subst hx; decide
    · subst hx; exact upperhex_clean _ (by omega)
    · subst hx; exact upperhex_clean _ (by omega)

theorem QueryEscape_clean (s : GoString) : ∀ x ∈ QueryEscape s, x ≠ 38 ∧ x ≠ 61 ∧ x ≠ 59 := by
  induction s with
  | nil => intro x hx; simp [QueryEscape] at hx
  | cons c cs ih =>
    intro x hx
    simp only [QueryEscape, List.mem_append] at hx
    rcases hx with hx | hx
    · exact escapeByte_clean c x hx
    · exact ih x hx

theorem QueryUnescape_plus (rest : GoString) :
    QueryUnescape (43 :: rest) = (QueryUnescape rest).map (fun t => (32 : Byte) :: t) := by
  rw [QueryUnescape.eq_def]
  simp only [show ¬ ((43 : Byte) = 37) by decide, if_false, if_true]

theorem QueryUnescape_plain (c : Byte) (rest : GoString) (h37 : c ≠ 37) (h43 : c ≠ 43) :
    QueryUnescape (c :: rest) = (QueryUnescape rest).map (fun t => c :: t) := by
  rw [QueryUnescape.eq_def]
  simp only [if_neg h37, if_neg h43]

theorem QueryUnescape_percent (a b : Byte) (rest : GoString)
    (ha : ishex a = true) (hb : ishex b = true) :
    QueryUnescape (37 :: a :: b :: rest)
      = (QueryUnescape rest).map (fun t => (Fin.ofNat (unhex a * 16 + unhex b) : Byte) :: t) := by
  rw [QueryUnescape.eq_def]
  simp only [if_true, ha, hb, Bool.and_self]

theorem QueryUnescape_escape (s : GoString) : QueryUnescape (QueryEscape s) = some s := by
  induction s with
  | nil => rfl
  | cons c cs ih =>
    simp only [QueryEscape]
    rcases escapeByte_cases c with ⟨h32, he⟩ | ⟨h32, h37, h43, _, _, _, he⟩ | ⟨he, hh1, hh2, hv⟩
    · rw [he, h32]
      show QueryUnescape (43 :: QueryEscape cs) = _
      rw [QueryUnescape_plus, ih]
      rfl
    · rw [he]
      show QueryUnescape (c :: QueryEscape cs) = _
      rw [QueryUnescape_plain c _ h37 h43, ih]
      rfl
    · rw [he]
      show QueryUnescape (37 :: _ :: _ :: QueryEscape cs) = _
      rw [QueryUnescape_percent _ _ _ hh1 hh2, ih, hv]
      rfl

/-! ### Splitting and joining -/

theorem splitOn_not_mem (sep : Byte) (s : GoString) (h : sep ∉ s) : splitOn sep s = [s] := by
  induction s with
  | nil => rfl
  | cons c cs ih =>
    have hc : c ≠ sep := fun e => h (by rw [e]; exact List.mem_cons_self _ _)
    have hcs : sep ∉ cs := fun e => h (List.mem_cons_of_mem _ e)
    simp only [splitOn, if_neg hc, ih hcs]

theorem splitOn_append_sep (sep : Byte) (s t : GoString) (h : sep ∉ s) :
    splitOn sep (s ++ sep :: t) = s :: splitOn sep t := by
  induction s with
  | nil => simp only [List.nil_append, splitOn, if_true]
  | cons c cs ih =>
    have hc : c ≠ sep := fun e => h (by rw [e]; exact List.mem_cons_self _ _)
    have hcs : sep ∉ cs := fun e => h (List.mem_cons_of_mem _ e)
    show splitOn sep (c :: (cs ++ sep :: t)) = _
    rw [splitOn, if_neg hc, ih hcs]

theorem cut_append_sep (sep : Byte) (a b : GoString) (h : sep ∉ a) :
    cut sep (a ++ sep :: b) = (a, b) := by
  induction a with
  | nil => simp only [List.nil_append, cut, if_true]
  | cons c cs ih =>
    have hc : c ≠ sep := fun e => h (by rw [e]; exact List.mem_cons_self _ _)
    have hcs : sep ∉ cs := fun e => h (List.mem_cons_of_mem _ e)
    show cut sep (c :: (cs ++ sep :: b)) = _
    rw [cut, if_neg hc, ih hcs]

theorem splitOn_ampJoin (p : GoString) (ps : List GoString) (hp : (38 : Byte) ∉ p)
    (hps : ∀ q ∈ ps, (38 : Byte) ∉ q) : splitOn 38 (p ++ ampJoin ps) = p :: ps := by
  induction ps generalizing p with
  | nil => simpa [ampJoin] using splitOn_not_mem 38 p hp
  | cons q qs ih =>
    simp only [ampJoin, List.cons_append]
    rw [splitOn_append_sep 38 p _ hp,
      ih q (hps q (List.mem_cons_self _ _)) (fun x hx => hps x (List.mem_cons_of_mem _ hx))]

/-! ### `Values.Encode` as a joined list of pairs -/

theorem encodeStep_nonempty (kE buf v : GoString) : 0 < (encodeStep kE buf v).length := by
  simp [encodeStep]

theorem foldl_encodeStep_nonempty (kE : GoString) (vs : List GoString) :
    ∀ buf : GoString, 0 < buf.length →
      vs.foldl (encodeStep kE) buf = buf ++ ampJoin (vs.map (fun v => kE ++ [61] ++ QueryEscape v))
  := by
  induction vs with
  | nil => intro buf _; simp [ampJoin]
  | cons v vs ih =>
    intro buf hb
    simp only [List.foldl_cons, List.map_cons, ampJoin]
    rw [ih _ (encodeStep_nonempty _ _ _)]
    simp [encodeStep, hb]

theorem foldl_encode_nonempty (m : Values) :
    ∀ buf : GoString, 0 < buf.length →
      m.foldl (fun buf kv => kv.2.foldl (encodeStep (QueryEscape kv.1)) buf) buf
        = buf ++ ampJoin (m.pairs.map encodePair) := by
  induction m with
  | nil => intro buf _; simp [Values.pairs, ampJoin]
  | cons kv rest ih =>
    intro buf hb
    obtain ⟨k, vs⟩ := kv
    simp only [List.foldl_cons, Values.pairs, List.map_append, List.map_map]
    rw [foldl_encodeStep_nonempty _ _ _ hb]
    have hb2 : 0 < (buf ++ ampJoin (vs.map (fun v => QueryEscape k ++ [61] ++ QueryEscape v))).length := by
      simp only [List.length_append]; omega
    rw [ih _ hb2]
    have hj : ∀ (xs ys : List GoString), ampJoin (xs ++ ys) = ampJoin xs ++ ampJoin ys := by
      intro xs ys
      induction xs with
      | nil => rfl
      | cons x xs ihx => simp [ampJoin, ihx]
    rw [hj, List.append_assoc]
    rfl

theorem Encode_eq (m : Values) :
    Values.Encode m =
      match m.pairs.map encodePair with
      | [] => []
      | p :: ps => p ++ ampJoin ps := by
  unfold Values.Encode
  induction m with
  | nil => rfl
  | cons kv rest ih =>
    obtain ⟨k, vs⟩ := kv
    cases vs with
    | nil =>
      simp only [List.foldl_cons, List.foldl_nil, Values.pairs, List.map_nil, List.nil_append]
      exact ih
    | cons v vs =>
      simp only [List.foldl_cons, Values.pairs, List.map_cons, List.map_append, List.cons_append]
      have h1 : encodeStep (QueryEscape k) [] v = encodePair (k, v) := by
        simp [encodeStep, encodePair]
      rw [h1, foldl_encodeStep_nonempty _ _ _ (by simp [encodePair])]
      rw [foldl_encode_nonempty _ _ (by simp [encodePair])]
      have hj : ∀ (xs ys : List GoString), ampJoin (xs ++ ys) = ampJoin xs ++ ampJoin ys := by
        intro xs ys
        induction xs with
        | nil => rfl
        | cons x xs ihx => simp [ampJoin, ihx]
      simp only [hj, List.append_assoc, List.map_map]
      have hf : (fun v => QueryEscape k ++ ([61] ++ QueryEscape v))
          = (encodePair ∘ fun v => (k, v)) := by
        funext v
        simp [encodePair]
      rw [hf]

theorem encodePair_clean (kv : GoString × GoString) :
    (38 : Byte) ∉ encodePair kv ∧ (59 : Byte) ∉ encodePair kv := by
  have h1 := QueryEscape_clean kv.1
  have h2 := QueryEscape_clean kv.2
  unfold encodePair
  simp only [List.mem_append, List.mem_singleton, not_or]
  refine ⟨⟨⟨fun h => (h1 _ h).1 rfl, by decide⟩, fun h => (h2 _ h).1 rfl⟩,
    ⟨⟨fun h => (h1 _ h).2.2 rfl, by decide⟩, fun h => (h2 _ h).2.2 rfl⟩⟩

theorem parsePair_encodePair (acc : Values) (kv : GoString × GoString) :
    parsePair acc (encodePair kv) = Values.Add acc kv.1 kv.2 := by
  have hclean := (encodePair_clean kv).2
  have hne : encodePair kv ≠ [] := by simp [encodePair]
  have hcut : cut 61 (encodePair kv) = (QueryEscape kv.1, QueryEscape kv.2) := by
    unfold encodePair
    rw [List.append_assoc]
    exact cut_append_sep 61 _ _ (fun h => (QueryEscape_clean kv.1 _ h).2.1 rfl)
  unfold parsePair
  rw [if_neg hclean, if_neg hne, hcut]
  simp only [QueryUnescape_escape]

theorem foldl_parsePair_encoded (ps : List (GoString × GoString)) :
    ∀ acc : Values,
      (ps.map encodePair).foldl parsePair acc
        = ps.foldl (fun acc kv => Values.Add acc kv.1 kv.2) acc := by
  induction ps with
  | nil => intro acc; rfl
  | cons p ps ih =>
    intro acc
    simp only [List.map_cons, List.foldl_cons, parsePair_encodePair, ih]

theorem ParseQuery_Encode_pairs (m : Values) :
    ParseQuery (Values.Encode m)
      = m.pairs.foldl (fun acc kv => Values.Add acc kv.1 kv.2) [] := by
  unfold ParseQuery
  rw [Encode_eq]
  cases hp : m.pairs with
  | nil => simp [splitOn, parsePair]
  | cons p ps =>
    simp only [List.map_cons]
    rw [splitOn_ampJoin _ _ (encodePair_clean p).1]
    · have := foldl_parsePair_encoded (p :: ps) []
      simpa using this
    · intro q hq
      obtain ⟨kv, _, rfl⟩ := List.mem_map.1 hq
      exact (encodePair_clean kv).1

/-! ### Rebuilding a `Values` from its pairs -/

theorem update_append_new (key : GoString) (f : List GoString → List GoString) (acc : Values)
    (h : ∀ kv ∈ acc, kv.1 < key) : Values.update key f acc = acc ++ [(key, f [])] := by
  induction acc with
  | nil => rfl
  | cons kv rest ih =>
    obtain ⟨k, vs⟩ := kv
    have hk : k < key := h (k, vs) (List.mem_cons_self _ _)
    rw [Values.update, if_neg (ne_of_gt hk), if_neg (lt_asymm hk),
      ih (fun x hx => h x (List.mem_cons_of_mem _ hx))]
    rfl

theorem update_append_last (key : GoString) (f : List GoString → List GoString) (acc : Values)
    (vs : List GoString) (h : ∀ kv ∈ acc, kv.1 < key) :
    Values.update key f (acc ++ [(key, vs)]) = acc ++ [(key, f vs)] := by
  induction acc with
  | nil => simp [Values.update]
  | cons kv rest ih =>
    obtain ⟨k, ws⟩ := kv
    have hk : k < key := h (k, ws) (List.mem_cons_self _ _)
    show Values.update key f ((k, ws) :: (rest ++ [(key, vs)])) = _
    rw [Values.update, if_neg (ne_of_gt hk), if_neg (lt_asymm hk),
      ih (fun x hx => h x (List.mem_cons_of_mem _ hx))]
    rfl

theorem foldl_Add_values (k : GoString) (vs : List GoString) (acc : Values)
    (h : ∀ kv ∈ acc, kv.1 < k) :
    ∀ cur : List GoString,
      (vs.map (fun v => (k, v))).foldl (fun acc kv => Values.Add acc kv.1 kv.2)
          (acc ++ [(k, cur)])
        = acc ++ [(k, cur ++ vs)] := by
  induction vs with
  | nil => intro cur; simp
  | cons v vs ih =>
    intro cur
    simp only [List.map_cons, List.foldl_cons, Values.Add]
    rw [update_append_last k _ acc cur h]
    have := ih (cur ++ [v])
    simp only [Values.Add] at this
    rw [this]
    simp

theorem foldl_Add_pairs (m : Values) :
    ∀ acc : Values, ((acc ++ m).map Prod.fst).Pairwise (· < ·) → (∀ kv ∈ m, kv.2 ≠ []) →
      m.pairs.foldl (fun acc kv => Values.Add acc kv.1 kv.2) acc = acc ++ m := by
  induction m with
  | nil => intro acc _ _; simp [Values.pairs]
  | cons kv rest ih =>
    intro acc hsorted hne
    obtain ⟨k, vs⟩ := kv
    have hacc : ∀ x ∈ acc, x.1 < k := by
      intro x hx
      rw [List.map_append, List.pairwise_append] at hsorted
      exact hsorted.2.2 x.1 (List.mem_map_of_mem _ hx) k (by simp)
    cases vs with
    | nil => exact absurd rfl (hne (k, []) (List.mem_cons_self _ _))
    | cons v vs =>
      simp only [Values.pairs, List.map_cons, List.cons_append, List.foldl_cons, List.foldl_append]
      have h1 : Values.Add acc k v = acc ++ [(k, [v])] := by
        unfold Values.Add
        rw [update_append_new k _ acc hacc]
        rfl
      rw [h1, foldl_Add_values k vs acc hacc [v]]
      have h2 : acc ++ [(k, [v] ++ vs)] ++ rest = acc ++ (k, v :: vs) :: rest := by simp
      rw [ih (acc ++ [(k, [v] ++ vs)]) (by rw [h2]; exact hsorted)
        (fun x hx => hne x (List.mem_cons_of_mem _ hx)), h2]

/-- Parsing what `Encode` wrote gives the `Values` back. -/
theorem ParseQuery_Encode (m : Values) (h : m.wellFormed) : ParseQuery (Values.Encode m) = m := by
  rw [ParseQuery_Encode_pairs, foldl_Add_pairs m [] (by simpa using h.1) h.2]
  rfl

/-! ### Well-formed `Values` -/

theorem update_keys (key : GoString) (f : List GoString → List GoString) (m : Values) :
    ∀ x ∈ (Values.update key f m).map Prod.fst, x = key ∨ x ∈ m.map Prod.fst := by
  induction m with
  | nil => intro x hx; simpa [Values.update] using hx
  | cons kv rest ih =>
    obtain ⟨k, vs⟩ := kv
    intro x hx
    rw [Values.update] at hx
    by_cases h1 : key = k
    · rw [if_pos h1] at hx
      exact Or.inr hx
    · rw [if_neg h1] at hx
      by_cases h2 : key < k
      · rw [if_pos h2] at hx
        simp only [List.map_cons, List.mem_cons] at hx ⊢
        tauto
      · rw [if_neg h2] at hx
        simp only [List.map_cons, List.mem_cons] at hx ⊢
        rcases hx with hx | hx
        · exact Or.inr (Or.inl hx)
        · rcases ih x hx with h | h
          · exact Or.inl h
          · exact Or.inr (Or.inr h)

theorem update_wellFormed (key : GoString) (f : List GoString → List GoString)
    (hf : ∀ vs, f vs ≠ []) (m : Values) (h : m.wellFormed) :
    (Values.update key f m).wellFormed := by
  induction m with
  | nil =>
    refine ⟨by simp [Values.update], ?_⟩
    intro kv hkv
    simp only [Values.update, List.mem_singleton] at hkv
    rw [hkv]
    exact hf []
  | cons kv rest ih =>
    obtain ⟨k, vs⟩ := kv
    obtain ⟨hs, hne⟩ := h
    have hs' := hs
    simp only [List.map_cons, List.pairwise_cons] at hs'
    have hrest : Values.wellFormed rest :=
      ⟨hs'.2, fun x hx => hne x (List.mem_cons_of_mem _ hx)⟩
    rw [Values.update]
    by_cases h1 : key = k
    · rw [if_pos h1]
      refine ⟨hs, ?_⟩
      intro x hx
      rcases List.mem_cons.1 hx with hx | hx
      · rw [hx]; exact hf vs
      · exact hne x (List.mem_cons_of_mem _ hx)
    · rw [if_neg h1]
      by_cases h2 : key < k
      · rw [if_pos h2]
        refine ⟨?_, ?_⟩
        · simp only [List.map_cons, List.pairwise_cons]
          refine ⟨?_, hs'⟩
          intro x hx
          rcases List.mem_cons.1 hx with hx | hx
          · rw [hx]; exact h2
          · exact lt_trans h2 (hs'.1 x hx)
        · intro x hx
          rcases List.mem_cons.1 hx with hx | hx
          · rw [hx]; exact hf []
          · exact hne x hx
      · rw [if_neg h2]
        have hk : k < key := lt_of_le_of_ne (not_lt.1 h2) (fun e => h1 e.symm)
        obtain ⟨ihs, ihne⟩ := ih hrest
        refine ⟨?_, ?_⟩
        · simp only [List.map_cons, List.pairwise_cons]
          refine ⟨?_, ihs⟩
          intro x hx
          rcases update_keys key f rest x hx with hx | hx
          · rw [hx]; exact hk
          · exact hs'.1 x hx
        · intro x hx
          rcases List.mem_cons.1 hx with hx | hx
          · rw [hx]; exact hne (k, vs) (List.mem_cons_self _ _)
          · exact ihne x hx

theorem parsePair_wellFormed (m : Values) (seg : GoString) (h : m.wellFormed) :
    (parsePair m seg).wellFormed := by
  unfold parsePair
  by_cases h1 : (59 : Byte) ∈ seg
  · rw [if_pos h1]; exact h
  · rw [if_neg h1]
    by_cases h2 : seg = []
    · rw [if_pos h2]; exact h
    · rw [if_neg h2]
      cases QueryUnescape (cut 61 seg).1 with
      | none => exact h
      | some key =>
        cases QueryUnescape (cut 61 seg).2 with
        | none => exact h
        | some value => exact update_wellFormed key _ (fun vs => by simp) m h

theorem ParseQuery_wellFormed (query : GoString) : (ParseQuery query).wellFormed := by
  unfold ParseQuery
  have : ∀ (segs : List GoString) (acc : Values), acc.wellFormed →
      (segs.foldl parsePair acc).wellFormed := by
    intro segs
    induction segs with
    | nil => intro acc h; exact h
    | cons s ss ih => intro acc h; exact ih _ (parsePair_wellFormed acc s h)
  exact this _ [] ⟨List.Pairwise.nil, fun _ h => absurd h (List.not_mem_nil _)⟩

theorem Set_wellFormed (m : Values) (key value : GoString) (h : m.wellFormed) :
    (m.Set key value).wellFormed :=
  update_wellFormed key _ (fun _ => by simp) m h

/-! ### Reading a `Values` after `Set` -/

theorem index_update_self (key value : GoString) (m : Values) :
    Values.index (Values.update key (fun _ => [value]) m) key = [value] := by
  induction m with
  | nil => simp [Values.update, Values.index]
  | cons kv rest ih =>
    obtain ⟨k, vs⟩ := kv
    rw [Values.update]
    by_cases h1 : key = k
    · rw [if_pos h1]; simp [Values.index, h1]
    · rw [if_neg h1]
      by_cases h2 : key < k
      · rw [if_pos h2]; simp [Values.index]
      · rw [if_neg h2]; simp [Values.index, h1, ih]

theorem index_update_other (key other : GoString) (f : List GoString → List GoString)
    (m : Values) (h : other ≠ key) :
    Values.index (Values.update key f m) other = Values.index m other := by
  induction m with
  | nil => simp [Values.update, Values.index, h]
  | cons kv rest ih =>
    obtain ⟨k, vs⟩ := kv
    rw [Values.update]
    by_cases h1 : key = k
    · rw [if_pos h1]; simp [Values.index, h1 ▸ h]
    · rw [if_neg h1]
      by_cases h2 : key < k
      · rw [if_pos h2]; simp [Values.index, h]
      · rw [if_neg h2]; simp [Values.index, ih]

theorem Set_Set (m : Values) (key a b : GoString) :
    (m.Set key a).Set key b = m.Set key b := by
  unfold Values.Set
  induction m with
  | nil => simp [Values.update]
  | cons kv rest ih =>
    obtain ⟨k, vs⟩ := kv
    by_cases h1 : key = k
    · simp [Values.update, h1]
    · by_cases h2 : key < k
      · simp [Values.update, h1, h2]
      · simp [Values.update, h1, h2, ih]

/-! ### `getPageLink` -/

theorem getPageLink_url (page : Int) (u : URL) :
    (getPageLink page u).2
      = { u with RawQuery := (u.Query.Set (ascii "p") (Itoa (max page 0))).Encode } := by
  have hmax : (if page < 1 then 0 else page) = max page 0 := by
    by_cases h : page < 1
    · rw [if_pos h, max_eq_right (by omega)]
    · rw [if_neg h, max_eq_left (by omega)]
  unfold getPageLink
  simp only [hmax]

theorem getPageLink_string (page : Int) (u : URL) :
    (getPageLink page u).1 = (getPageLink page u).2.String := rfl

theorem getPageLink_parse (page : Int) (u : URL) :
    ParseQuery (getPageLink page u).2.RawQuery
      = (ParseQuery u.RawQuery).Set (ascii "p") (Itoa (max page 0)) := by
  rw [getPageLink_url]
  exact ParseQuery_Encode _ (Set_wellFormed _ _ _ (ParseQuery_wellFormed _))

theorem getPageLink_nonempty (page : Int) (u : URL) :
    (getPageLink page u).2.RawQuery ≠ [] := by
  intro h
  have hp := getPageLink_parse page u
  rw [h] at hp
  have hi := index_update_self (ascii "p") (Itoa (max page 0)) (ParseQuery u.RawQuery)
  unfold Values.Set at hp
  rw [← hp] at hi
  have h0 : Values.index (ParseQuery []) (ascii "p") = [] := by decide
  rw [h0] at hi
  exact List.noConfusion hi

/-- C3 (as stated, refuted): after `getPageLink(3, u)` on the URL `/s?q=x` the
URL passed in has the query `p=3&q=x`. -/
theorem getPageLink_overwrites_RawQuery :
    (getPageLink 3 (searchURL (ascii "q=x"))).2 ≠ searchURL (ascii "q=x")
      ∧ (getPageLink 3 (searchURL (ascii "q=x"))).2.RawQuery = ascii "p=3&q=x" := by
  decide

/-- C3 (amended): `getPageLink` works on the URL passed in, not on a copy:
after the call its `RawQuery` is the encoding of its parsed query with `p` set
to the decimal of `max(page, 0)`, and every other field is what it was. -/
theorem getPageLink_writes_only_RawQuery (page : Int) (u : URL) :
    (getPageLink page u).2
        = { u with RawQuery := (u.Query.Set (ascii "p") (Itoa (max page 0))).Encode }
      ∧ (getPageLink page u).2.Scheme = u.Scheme
      ∧ (getPageLink page u).2.Opaque = u.Opaque
      ∧ (getPageLink page u).2.User = u.User
      ∧ (getPageLink page u).2.Host = u.Host
      ∧ (getPageLink page u).2.Path = u.Path
      ∧ (getPageLink page u).2.OmitHost = u.OmitHost
      ∧ (getPageLink page u).2.ForceQuery = u.ForceQuery
      ∧ (getPageLink page u).2.Fragment = u.Fragment := by
  refine ⟨getPageLink_url page u, ?_⟩
  rw [getPageLink_url]
  exact ⟨rfl, rfl, rfl, rfl, rfl, rfl, rfl, rfl⟩

/-! ### The decimal numeral written by `Itoa` -/

theorem decimalValueFrom_append (n : Nat) (s : GoString) (c : Byte) :
    decimalValueFrom n (s ++ [c]) = decimalValueFrom n s * 10 + (c.val - 48) := by
  simp [decimalValueFrom, List.foldl_append]

theorem digit_val (n : Nat) (h : n < 10) : ((Fin.ofNat (48 + n) : Byte)).val = 48 + n := by
  show (48 + n) % 256 = 48 + n
  omega

theorem formatDecimal_spec : ∀ fuel n : Nat, n < fuel → isDecimalOf (formatDecimal fuel n) n := by
  intro fuel
  induction fuel with
  | zero => intro n h; omega
  | succ fuel ih =>
    intro n hn
    by_cases h10 : n < 10
    · have hs : formatDecimal (fuel + 1) n = [Fin.ofNat (48 + n)] := by
        simp only [formatDecimal, if_pos h10]
      have hv := digit_val n h10
      rw [hs]
      refine ⟨List.cons_ne_nil _ _, ?_, ?_, ?_⟩
      · simp only [List.all_cons, List.all_nil, Bool.and_true, isDigit, hv, Bool.and_eq_true,
          decide_eq_true_eq]
        omega
      · simp only [decimalValueFrom, List.foldl_cons, List.foldl_nil, hv]
        omega
      · intro h
        simp only [List.head?_cons, Option.some.injEq] at h
        rw [h]
    · have hs : formatDecimal (fuel + 1) n
          = formatDecimal fuel (n / 10) ++ [Fin.ofNat (48 + n % 10)] := by
        simp only [formatDecimal, if_neg h10]
      have hv := digit_val (n % 10) (by omega)
      obtain ⟨hne, hall, hval, hhead⟩ := ih (n / 10) (by omega)
      rw [hs]
      refine ⟨by simp, ?_, ?_, ?_⟩
      · simp only [List.all_append, hall, List.all_cons, List.all_nil, Bool.and_true, isDigit, hv,
          Bool.true_and, Bool.and_eq_true, decide_eq_true_eq]
        omega
      · rw [decimalValueFrom_append, hval, hv]
        omega
      · intro h
        exfalso
        have hh : (formatDecimal fuel (n / 10)).head? = some 48 := by
          cases hf : formatDecimal fuel (n / 10) with
          | nil => exact absurd hf hne
          | cons c cs => rw [hf] at h; simpa using h
        have h48 := hhead hh
        rw [h48] at hval
        have : decimalValueFrom 0 [48] = 0 := by decide
        omega

theorem Itoa_spec (i : Int) (h : 0 ≤ i) : isDecimalOf (Itoa i) i.toNat := by
  cases i with
  | ofNat n => exact formatDecimal_spec (n + 1) n (by omega)
  | negSucc n => exact absurd h (by simp)

/-! ### The values of a key in a list of pairs -/

theorem valuesOf_append (key : GoString) (a b : List (GoString × GoString)) :
    valuesOf key (a ++ b) = valuesOf key a ++ valuesOf key b := by
  simp [valuesOf]

theorem valuesOf_map_key (key k : GoString) (vs : List GoString) :
    valuesOf key (vs.map (fun v => (k, v))) = if k = key then vs else [] := by
  by_cases h : k = key
  · rw [if_pos h]
    induction vs with
    | nil => rfl
    | cons v vs ih =>
      simp only [valuesOf, List.map_cons, List.filter_cons, h, decide_True, if_true] at ih ⊢
      rw [ih]
  · rw [if_neg h]
    induction vs with
    | nil => rfl
    | cons v vs ih =>
      simp only [valuesOf, List.map_cons, List.filter_cons, h, decide_False] at ih ⊢
      exact ih

theorem index_of_not_mem (m : Values) (key : GoString) (h : key ∉ m.map Prod.fst) :
    Values.index m key = [] := by
  induction m with
  | nil => rfl
  | cons kv rest ih =>
    obtain ⟨k, vs⟩ := kv
    simp only [List.map_cons, List.mem_cons, not_or] at h
    simp only [Values.index, if_neg h.1]
    exact ih h.2

theorem valuesOf_pairs_of_not_mem (m : Values) (key : GoString) (h : key ∉ m.map Prod.fst) :
    valuesOf key m.pairs = [] := by
  induction m with
  | nil => rfl
  | cons kv rest ih =>
    obtain ⟨k, vs⟩ := kv
    simp only [List.map_cons, List.mem_cons, not_or] at h
    rw [Values.pairs, valuesOf_append, valuesOf_map_key, if_neg (fun e => h.1 e.symm), ih h.2]
    rfl

theorem valuesOf_pairs (m : Values) (key : GoString)
    (hs : (m.map Prod.fst).Pairwise (· < ·)) : valuesOf key m.pairs = Values.index m key := by
  induction m with
  | nil => rfl
  | cons kv rest ih =>
    obtain ⟨k, vs⟩ := kv
    simp only [List.map_cons, List.pairwise_cons] at hs
    rw [Values.pairs, valuesOf_append, valuesOf_map_key]
    by_cases h : key = k
    · have hnot : key ∉ rest.map Prod.fst := by
        intro hmem
        have := hs.1 key hmem
        rw [h] at this
        exact lt_irrefl _ this
      rw [if_pos h.symm, valuesOf_pairs_of_not_mem rest key hnot]
      simp only [Values.index, if_pos h, List.append_nil]
    · rw [if_neg (fun e => h e.symm), ih hs.2]
      simp only [Values.index, if_neg h, List.nil_append]

theorem index_update (key : GoString) (f : List GoString → List GoString) (m : Values)
    (hs : (m.map Prod.fst).Pairwise (· < ·)) :
    Values.index (Values.update key f m) key = f (Values.index m key) := by
  induction m with
  | nil => simp [Values.update, Values.index]
  | cons kv rest ih =>
    obtain ⟨k, vs⟩ := kv
    simp only [List.map_cons, List.pairwise_cons] at hs
    rw [Values.update]
    by_cases h1 : key = k
    · rw [if_pos h1]
      simp only [Values.index, if_pos h1]
    · rw [if_neg h1]
      by_cases h2 : key < k
      · rw [if_pos h2]
        have hnot : key ∉ rest.map Prod.fst := by
          intro hmem
          exact lt_asymm h2 (hs.1 key hmem)
        simp only [Values.index, if_neg h1, if_true, index_of_not_mem rest key hnot]
      · rw [if_neg h2]
        simp only [Values.index, if_neg h1]
        exact ih hs.2

theorem index_foldl_Add (ps : List (GoString × GoString)) (key : GoString) :
    ∀ acc : Values, acc.wellFormed →
      Values.index (ps.foldl (fun acc kv => Values.Add acc kv.1 kv.2) acc) key
        = Values.index acc key ++ valuesOf key ps := by
  induction ps with
  | nil => intro acc _; simp [valuesOf]
  | cons p ps ih =>
    intro acc hacc
    have hwf : (Values.Add acc p.1 p.2).wellFormed :=
      update_wellFormed p.1 _ (fun vs => by simp) acc hacc
    rw [List.foldl_cons, ih _ hwf]
    by_cases h : p.1 = key
    · have hv : valuesOf key (p :: ps) = p.2 :: valuesOf key ps := by
        simp [valuesOf, List.filter_cons, h]
      rw [hv, ← h]
      unfold Values.Add
      rw [index_update p.1 _ acc hacc.1]
      simp
    · have hv : valuesOf key (p :: ps) = valuesOf key ps := by
        simp [valuesOf, List.filter_cons, h]
      rw [hv]
      unfold Values.Add
      rw [index_update_other p.1 key _ acc (fun e => h e.symm)]

theorem ParseQuery_joinPairs (ps : List (GoString × GoString)) :
    ParseQuery (joinPairs ps) = ps.foldl (fun acc kv => Values.Add acc kv.1 kv.2) [] := by
  unfold ParseQuery joinPairs
  cases ps with
  | nil => simp [splitOn, parsePair]
  | cons p ps =>
    simp only [List.map_cons]
    rw [splitOn_ampJoin _ _ (encodePair_clean p).1]
    · have := foldl_parsePair_encoded (p :: ps) []
      simpa using this
    · intro q hq
      obtain ⟨kv, _, rfl⟩ := List.mem_map.1 hq
      exact (encodePair_clean kv).1

theorem index_ParseQuery_joinPairs (ps : List (GoString × GoString)) (key : GoString) :
    Values.index (ParseQuery (joinPairs ps)) key = valuesOf key ps := by
  rw [ParseQuery_joinPairs,
    index_foldl_Add ps key [] ⟨List.Pairwise.nil, fun _ h => absurd h (List.not_mem_nil _)⟩]
  rfl

theorem Encode_eq_joinPairs (m : Values) : Values.Encode m = joinPairs m.pairs := by
  rw [Encode_eq]
  rfl

/-- C4 (as stated, refuted): a parameter of the input URL that `url.ParseQuery`
does not accept is not carried over: `getPageLink(2, u)` returns `/s?p=2&x=1`
for `/s?q=a;b&x=1` and for `/s?q=%zz&x=1`, without the parameter `q`. -/
theorem getPageLink_drops_unparsed_parameters :
    (getPageLink 2 (searchURL (ascii "q=a;b&x=1"))).1 = ascii "/s?p=2&x=1"
      ∧ (getPageLink 2 (searchURL (ascii "q=%zz&x=1"))).1 = ascii "/s?p=2&x=1" := by
  decide

/-- C4 (amended): the string `getPageLink(t, u)` returns is the part of `u`
before the query, `?`, the text `k1=v1&k2=v2...` of a list `out` of escaped
key/value pairs, and the fragment of `u`.  In `out` the key `p` has the single
value `d`, the decimal numeral of `max(t, 0)`, and every other key has the
values, in their order, that `u.Query()` gives it, which for a query written
as the text of a list of pairs are the values of the key in that list;
parsing the query of the returned string gives `u.Query()` with `p` set to
`d`; for `t ≤ 0` the numeral is `0`, and `getPageLink(-1, u)` and
`getPageLink(0, u)` return the same. -/
theorem getPageLink_query (t : Int) (u : URL) :
    ∃ (d : GoString) (out : List (GoString × GoString)),
      isDecimalOf d (max t 0).toNat
        ∧ (getPageLink t u).1
            = u.beforeQuery ++ 63 :: joinPairs out
                ++ (if u.Fragment ≠ [] then 35 :: u.Fragment else [])
        ∧ valuesOf (ascii "p") out = [d]
        ∧ (∀ key, key ≠ ascii "p" → valuesOf key out = Values.index u.Query key)
        ∧ (∀ ps, u.RawQuery = joinPairs ps →
            ∀ key, key ≠ ascii "p" → valuesOf key out = valuesOf key ps)
        ∧ ParseQuery (joinPairs out) = u.Query.Set (ascii "p") d
        ∧ (t ≤ 0 → d = ascii "0")
        ∧ getPageLink (-1) u = getPageLink 0 u := by
  have hwf : (u.Query.Set (ascii "p") (Itoa (max t 0))).wellFormed :=
    Set_wellFormed _ _ _ (ParseQuery_wellFormed _)
  have hurl := getPageLink_url t u
  have hraw : (getPageLink t u).2.RawQuery
      = joinPairs (u.Query.Set (ascii "p") (Itoa (max t 0))).pairs := by
    rw [hurl]
    exact Encode_eq_joinPairs _
  have hne := getPageLink_nonempty t u
  have hother : ∀ key, key ≠ ascii "p" →
      valuesOf key (u.Query.Set (ascii "p") (Itoa (max t 0))).pairs
        = Values.index u.Query key := by
    intro key hkey
    rw [valuesOf_pairs _ key hwf.1]
    exact index_update_other _ _ _ _ hkey
  refine ⟨Itoa (max t 0), (u.Query.Set (ascii "p") (Itoa (max t 0))).pairs,
    Itoa_spec _ (le_max_right _ _), ?_, ?_, hother, ?_, ?_, ?_, rfl⟩
  · rw [getPageLink_string, ← hraw]
    unfold URL.String
    rw [if_pos (Or.inr hne)]
    rw [hurl]
    rfl
  · rw [valuesOf_pairs _ _ hwf.1]
    exact index_update_self _ _ _
  · intro ps hps key hkey
    rw [hother key hkey]
    unfold URL.Query
    rw [hps]
    exact index_ParseQuery_joinPairs ps key
  · rw [← Encode_eq_joinPairs]
    exact ParseQuery_Encode _ hwf
  · intro ht
    rw [max_eq_right ht]
    rfl

theorem getPageLink_query_witness :
    (getPageLink 7 (searchURL (ascii "f=x&f=y&q=a+b&p=2"))).1 = ascii "/s?f=x&f=y&p=7&q=a+b"
      ∧ ∃ (d : GoString) (out : List (GoString × GoString)),
          isDecimalOf d 7
            ∧ (getPageLink 7 (searchURL (ascii "f=x&f=y&q=a+b&p=2"))).1
                = ascii "/s?" ++ joinPairs out
            ∧ valuesOf (ascii "p") out = [d]
            ∧ valuesOf (ascii "f") out = [ascii "x", ascii "y"]
            ∧ valuesOf (ascii "q") out = [ascii "a b"] :=
  ⟨by decide,
    match getPageLink_query 7 (searchURL (ascii "f=x&f=y&q=a+b&p=2")) with
    | ⟨d, out, hd, hs, hp, _, hps, _⟩ =>
      ⟨d, out, hd,
        hs.trans (by
          have hb : (searchURL (ascii "f=x&f=y&q=a+b&p=2")).beforeQuery = [47, 115] := by decide
          have hq : ascii "/s?" = [47, 115, 63] := by decide
          rw [hb, hq]
          simp [searchURL]),
        hp,
        (hps [(ascii "f", ascii "x"), (ascii "f", ascii "y"), (ascii "q", ascii "a b"),
              (ascii "p", ascii "2")] (by decide) (ascii "f") (by decide)).trans (by decide),
        (hps [(ascii "f", ascii "x"), (ascii "f", ascii "y"), (ascii "q", ascii "a b"),
              (ascii "p", ascii "2")] (by decide) (ascii "q") (by decide)).trans (by decide)⟩⟩

/-- C9: a call of `getPageLink` on the URL an earlier call has left behind
returns the string, and leaves the URL, that the same call on the original URL
does; the handler's `prevpage` and `nextpage`, computed by two calls on the
request URL, are the links the original URL gives for `page-1` and `page+1`. -/
theorem getPageLink_twice {Filter : Type} (u : URL) (a b : Int) (env : Env Filter)
    (r : Request) (query : GoString) (filters : Filter) (page : Int) (resp : SearchResult)
    (results : List Result) (mp : Int) :
    getPageLink b (getPageLink a u).2 = getPageLink b u
      ∧ (pageContext env r query filters page resp results mp).prevpage
          = (getPageLink (wrapInt (page - 1)) r.URL).1
      ∧ (pageContext env r query filters page resp results mp).nextpage
          = (getPageLink (wrapInt (page + 1)) r.URL).1 := by
  have key : ∀ (u : URL) (a b : Int), getPageLink b (getPageLink a u).2 = getPageLink b u := by
    intro u a b
    have h2 : ∀ v : URL, getPageLink b v = ((getPageLink b v).2.String, (getPageLink b v).2) :=
      fun v => rfl
    rw [h2 (getPageLink a u).2, h2 u]
    have hurl : (getPageLink b (getPageLink a u).2).2 = (getPageLink b u).2 := by
      rw [getPageLink_url b (getPageLink a u).2, getPageLink_url b u]
      unfold URL.Query
      rw [getPageLink_parse a u, Set_Set, getPageLink_url a u]
    rw [hurl]
  refine ⟨key u a b, rfl, ?_⟩
  show (getPageLink (wrapInt (page + 1)) (getPageLink (wrapInt (page - 1)) r.URL).2).1 = _
  rw [key]

end Torture
